import Mathlib

/-!
# Serial eigenvalue extraction kernel (`SerialEigenvalueInternal`)

A shallow embedding of `KokkosBatched_Eigenvalue_Serial_Internal.hpp`.

* The real scalar type `RealType` is a type parameter `S`; the operations the
  kernel applies to it (`ats::abs`, `ats::isNan`, `ats::nan()`, `ats::epsilon()`,
  the literal `1e5`, `*`, `+`, `<`) are the fields of `ArithTraits S`.
* `RealType * H` is a buffer read and written by offset from the pointer `H`
  (`Mem.H`); `er` and `ei` are addresses into one output memory (`Mem.E`), so
  that the complex overload, which passes `ei = er + 1`, is the same function.
  `H` is taken not to overlap the output memory.
* `SerialWilkinsonShiftInternal::invoke` and `SerialFrancisInternal::invoke`
  are defined in headers of their own
  (`KokkosBatched_WilkinsonShift_Serial_Internal.hpp`,
  `KokkosBatched_Francis_Serial_Internal.hpp`); the kernel takes them as the
  parameters `W` and `F`.
* `int` arithmetic on sizes, strides and offsets is arithmetic on `Int`
  (signed overflow is undefined behaviour in the source and is not modelled).
-/

namespace KokkosBatched

/-- Mirror of `Kokkos::complex<RealType>`: a real part and an imaginary part. -/
structure Cplx (S : Type) where
  re : S
  im : S

/-- Operations of the real scalar type used by the kernel: `zero` is
`real_type zero(0)`, `nan` is `ats::nan()`, `epsilon` is `ats::epsilon()`,
`e5` is the literal `1e5`, `lt x y` is `x < y` (and `y > x`). -/
structure ArithTraits (S : Type) where
  zero : S
  nan : S
  epsilon : S
  e5 : S
  abs : S → S
  isNan : S → Bool
  add : S → S → S
  mul : S → S → S
  lt : S → S → Bool

/-- Caller-owned buffers: `H` by offset from the pointer `H`, `E` the memory
the pointers `er` and `ei` point into. -/
structure Mem (S : Type) where
  H : Int → S
  E : Int → S

/-- Result of a call: `abort` is `Kokkos::abort` (with the memory at that
point), `ret r mem` is `return r_val` with the memory on return. -/
inductive Outcome (S : Type) where
  | abort (mem : Mem S)
  | ret (r_val : Int) (mem : Mem S)

/-- Returned status, `none` for an abort. -/
def Outcome.status {S : Type} : Outcome S → Option Int
  | Outcome.abort _ => none
  | Outcome.ret r _ => some r

/-- Memory at the end of the call. -/
def Outcome.mem {S : Type} : Outcome S → Mem S
  | Outcome.abort mem => mem
  | Outcome.ret _ mem => mem

/-- Assignment `p[a] = v` on a buffer. -/
def store {S : Type} (f : Int → S) (a : Int) (v : S) : Int → S :=
  fun x => if x = a then v else f x

/-- Loop `for (int i=0;i<n;++i) body(i)`: the body runs for i = 0, 1, .., n-1
in this order. -/
def forLoop {σ : Type} : Nat → (Int → σ → σ) → σ → σ
  | 0, _, s => s
  | n + 1, body, s => body (n : Int) (forLoop n body s)

/-- Loop `for (;cnt<m;++cnt) { if (stop(cnt)) break; }`, returning the final
`cnt`; the first argument is the number of values of `cnt` left below `m`. -/
def scan (stop : Int → Bool) : Nat → Int → Int
  | 0, cnt => cnt
  | n + 1, cnt => if stop cnt then cnt else scan stop n (cnt + 1)

/-- Type of `SerialWilkinsonShiftInternal::invoke(a, b, c, d, &lambda1,
&lambda2, &is_complex)`. -/
abbrev Wilkinson (S : Type) := S → S → S → S → Cplx S × Cplx S × Bool

/-- Type of `SerialFrancisInternal::invoke(m, H, hs0, hs1, lambda1, lambda2,
is_complex)`: the pointer argument is given as an offset into the buffer. -/
abbrev Francis (S : Type) :=
  Int → Int → Int → Int → Cplx S → Cplx S → Bool → (Int → S) → (Int → S)

/-- Properties of the scalar arithmetic that the results below rely on; IEEE
arithmetic has them: `ats::nan()` is a NaN, the default tolerance
`1e5*epsilon` is not negative, and for a tolerance `t` that is not negative
the product `t*abs(r)` is never below `abs(0)` (it is non-negative or NaN). -/
structure ArithTraits.Lawful {S : Type} (A : ArithTraits S) : Prop where
  isNan_nan : A.isNan A.nan = true
  default_tol : A.lt (A.mul A.e5 A.epsilon) A.zero = false
  abs_zero_not_gt : ∀ t r : S, A.lt t A.zero = false →
    A.lt (A.mul t (A.abs r)) (A.abs A.zero) = false

/-- Exact arithmetic over an ordered field `K` extended by one NaN (`none`):
operations are those of `K`, a NaN operand gives NaN, and every comparison
with NaN is false. `eps` stands for the machine epsilon. -/
def exactTraits (K : Type) [LinearOrderedField K] (eps : K) : ArithTraits (Option K) where
  zero := some 0
  nan := none
  epsilon := some eps
  e5 := some 100000
  abs := fun x => match x with
    | some a => some |a|
    | none => none
  isNan := fun x => match x with
    | some _ => false
    | none => true
  add := fun x y => match x, y with
    | some a, some b => some (a + b)
    | _, _ => none
  mul := fun x y => match x, y with
    | some a, some b => some (a * b)
    | _, _ => none
  lt := fun x y => match x, y with
    | some a, some b => decide (a < b)
    | _, _ => false

/-- Modelled from the spec: `SerialWilkinsonShiftInternal::invoke`, whose header
`KokkosBatched_WilkinsonShift_Serial_Internal.hpp` is missing. For the 2x2
matrix [[a,b],[c,d]] the eigenvalues are trace/2 ± sqrt(discriminant), the
discriminant being that of the characteristic quadratic, (trace/2)^2 - det: a
negative discriminant gives the complex-conjugate pair `lambda1 = p + i*sqrt(-v)`,
`lambda2 = p - i*sqrt(-v)` with the flag set, otherwise two real values
`p + sqrt(v)` and `p - sqrt(v)`. The square root is a parameter; a NaN operand
makes every output NaN. -/
def wilkinsonShift {K : Type} [LinearOrderedField K] (sqrt : K → K) :
    Wilkinson (Option K) :=
  fun a b c d => match a, b, c, d with
    | some a, some b, some c, some d =>
      let p := (a + d) / 2
      let v := p * p - (a * d - b * c)
      if v < 0 then
        (⟨some p, some (sqrt (-v))⟩, ⟨some p, some (-(sqrt (-v)))⟩, true)
      else
        (⟨some (p + sqrt v), some 0⟩, ⟨some (p - sqrt v), some 0⟩, false)
    | _, _, _, _ => (⟨none, none⟩, ⟨none, none⟩, false)

/-- A square root on the rationals, exact on squares of rationals: the integer
square roots of numerator and denominator. -/
def ratSqrt (q : ℚ) : ℚ := (Nat.sqrt q.num.toNat : ℚ) / (Nat.sqrt q.den : ℚ)

/-- A stand-in for the Francis step that leaves the buffer as it is. -/
def francisId (S : Type) : Francis S := fun _ _ _ _ _ _ _ H => H

/-- Buffer holding the listed values at offsets 0, 1, 2, .. and `d` elsewhere. -/
def bufOf {S : Type} (d : S) (l : List S) : Int → S :=
  fun x => if 0 ≤ x then l.getD x.toNat d else d

/-- Exact rational arithmetic with the machine epsilon of `double`. -/
def ratTraits : ArithTraits (Option ℚ) := exactTraits ℚ (1 / 2 ^ 52)

/-- The 3x3 matrix diag(2,5,9), row-major (`hs0 = 3`, `hs1 = 1`), with an
output memory of arbitrary content. -/
def memDiag : Mem (Option ℚ) where
  H := bufOf none [some 2, some 0, some 0, some 0, some 5, some 0, some 0, some 0, some 9]
  E := fun _ => some 7

/-- The 2x2 matrix [[0,-1],[1,0]], row-major (`hs0 = 2`, `hs1 = 1`), with an
output memory of arbitrary content. -/
def memRot : Mem (Option ℚ) where
  H := bufOf none [some 0, some (-1), some 1, some 0]
  E := fun _ => some 7

/-- The 3x3 Hessenberg matrix [[1,0,0],[3/2,1,-1],[0,1,1]], row-major
(`hs0 = 3`, `hs1 = 1`), with an output memory of arbitrary content. -/
def memPair : Mem (Option ℚ) where
  H := bufOf none [some 1, some 0, some 0, some (3 / 2), some 1, some (-1),
    some 0, some 1, some 1]
  E := fun _ => some 7

/-- The 3x3 Hessenberg matrix [[1,1,1],[1,1,1],[0,0,0]], row-major (`hs0 = 3`,
`hs1 = 1`), with an output memory of arbitrary content: `H[2,1]` and `H[2,2]`
are both zero. -/
def memReduced : Mem (Option ℚ) where
  H := bufOf none [some 1, some 1, some 1, some 1, some 1, some 1, some 0, some 0, some 0]
  E := fun _ => some 7

/-- The 3x3 Hessenberg matrix [[1,-1,0],[1,1,0],[0,0,5]], row-major (`hs0 = 3`,
`hs1 = 1`), with an output memory of arbitrary content. -/
def memBlock : Mem (Option ℚ) where
  H := bufOf none [some 1, some (-1), some 0, some 1, some 1, some 0, some 0, some 0, some 5]
  E := fun _ => some 7

namespace SerialEigenvalueInternal

variable {S : Type}

/-- The tolerance `tol`: `user_tolerence < 0 ? 1e5*ats::epsilon() : user_tolerence`. -/
def tolOf (A : ArithTraits S) (user_tolerence : S) : S :=
  if A.lt user_tolerence A.zero then A.mul A.e5 A.epsilon else user_tolerence

/-- The loop `for (int i=0;i<m;++i) er[i*ers] = nan;`. -/
def initNan (A : ArithTraits S) (m er ers : Int) (E : Int → S) : Int → S :=
  forLoop m.toNat (fun i E => store E (er + i * ers) A.nan) E

/-- Value of `cnt` after the first scan ("find mbeg"): it starts at 1 and
stops at the first `cnt` with `abs(H[cnt*hs-hs1]) > tol*abs(H[cnt*hs])`. -/
def cntBeg (A : ArithTraits S) (tol : S) (m hs hs1 : Int) (H : Int → S) : Int :=
  scan (fun cnt => A.lt (A.mul tol (A.abs (H (cnt * hs)))) (A.abs (H (cnt * hs - hs1))))
    (m - 1).toNat 1

/-- The index `mbeg = cnt-1` after the first scan. -/
def mbegOf (A : ArithTraits S) (tol : S) (m hs hs1 : Int) (H : Int → S) : Int :=
  cntBeg A tol m hs hs1 H - 1

/-- The index `mend`: the second scan continues from the first one and stops
at the first `cnt` with `abs(H[cnt*hs-hs1]) < tol*abs(H[cnt*hs])`. -/
def mendOf (A : ArithTraits S) (tol : S) (m hs hs1 : Int) (H : Int → S) : Int :=
  scan (fun cnt => A.lt (A.abs (H (cnt * hs - hs1))) (A.mul tol (A.abs (H (cnt * hs)))))
    (m - cntBeg A tol m hs hs1 H).toNat (cntBeg A tol m hs hs1 H)

/-- The test of Step 2, `mbeg < (mend-1)`: there are non-converged eigenvalues. -/
def active (A : ArithTraits S) (tol : S) (m hs hs1 : Int) (H : Int → S) : Bool :=
  decide (mbegOf A tol m hs hs1 H < mendOf A tol m hs hs1 H - 1)

/-- The block "Francis double shift method" for a window `[mbeg, mend)`. -/
def francisBlock (A : ArithTraits S) (W : Wilkinson S) (F : Francis S) (tol : S)
    (hs0 hs1 er ers ei eis mbeg mend : Int) (mem : Mem S) : Mem S :=
  let hs := hs0 + hs1
  let sub2x2 := (mend - 2) * hs
  let w := W (mem.H (sub2x2 + (0 * hs0 + 0 * hs1))) (mem.H (sub2x2 + (0 * hs0 + 1 * hs1)))
    (mem.H (sub2x2 + (1 * hs0 + 0 * hs1))) (mem.H (sub2x2 + (1 * hs0 + 1 * hs1)))
  let lambda1 := w.1
  let lambda2 := w.2.1
  let is_complex := w.2.2
  if mend - mbeg = 2 then
    let E1 := store mem.E (er + (mbeg + 0) * ers) lambda1.re
    let E2 := store E1 (ei + (mbeg + 0) * eis) lambda1.im
    let E3 := store E2 (er + (mbeg + 1) * ers) lambda2.re
    let E4 := store E3 (ei + (mbeg + 1) * eis) lambda2.im
    { H := store mem.H (sub2x2 + (1 * hs0 + 0 * hs1)) A.zero, E := E4 }
  else
    let H1 := F (mend - mbeg) (hs * mbeg) hs0 hs1 lambda1 lambda2 is_complex mem.H
    let val1 := A.abs (H1 (sub2x2 + hs0))
    let val2 := A.abs (H1 (sub2x2 - hs1))
    let ref_val1 := A.abs (H1 (sub2x2 + hs))
    let ref_val2 := A.abs (H1 sub2x2)
    if A.lt val1 (A.mul tol ref_val1) then
      let E1 := store mem.E (er + (mend - 1) * ers) (H1 (sub2x2 + hs))
      let E2 := store E1 (ei + (mend - 1) * eis) A.zero
      { H := H1, E := E2 }
    else if A.lt val2 (A.mul tol (A.add ref_val1 ref_val2)) then
      let E1 := store mem.E (er + (mend - 1) * ers) lambda1.re
      let E2 := store E1 (ei + (mend - 1) * eis) lambda1.im
      let E3 := store E2 (er + (mend - 2) * ers) lambda2.re
      let E4 := store E3 (ei + (mend - 2) * eis) lambda2.im
      { H := store H1 (sub2x2 + hs0) A.zero, E := E4 }
    else
      { H := H1, E := mem.E }

/-- One pass through the loop body when the window is active: the scans of
Step 1 followed by the Francis double shift block. -/
def sweep (A : ArithTraits S) (W : Wilkinson S) (F : Francis S) (tol : S)
    (m hs0 hs1 er ers ei eis : Int) (mem : Mem S) : Mem S :=
  francisBlock A W F tol hs0 hs1 er ers ei eis
    (mbegOf A tol m (hs0 + hs1) hs1 mem.H) (mendOf A tol m (hs0 + hs1) hs1 mem.H) mem

/-- The loop `while (!converge && iter < max_iteration)`; the first argument
is the number of iterations left, the result is `converge` and the memory. -/
def iterate (A : ArithTraits S) (W : Wilkinson S) (F : Francis S) (tol : S)
    (m hs0 hs1 er ers ei eis : Int) : Nat → Mem S → Bool × Mem S
  | 0, mem => (false, mem)
  | n + 1, mem =>
    if active A tol m (hs0 + hs1) hs1 mem.H then
      iterate A W F tol m hs0 hs1 er ers ei eis n (sweep A W F tol m hs0 hs1 er ers ei eis mem)
    else
      (true, mem)

/-- Body of the loop of Step 3 for index `i`:
`if (ats::isNan(er[i*ers])) { er[i*ers] = H[i*hs]; ei[i*eis] = zero; }`. -/
def fillBody (A : ArithTraits S) (hs er ers ei eis : Int) (H : Int → S) :
    Int → (Int → S) → (Int → S) :=
  fun i E =>
    if A.isNan (E (er + i * ers)) then
      store (store E (er + i * ers) (H (i * hs))) (ei + i * eis) A.zero
    else E

/-- Step 3: `for (int i=0;i<m;++i) if (ats::isNan(er[i*ers])) { er[i*ers] =
H[i*hs]; ei[i*eis] = zero; }`. -/
def fillMissing (A : ArithTraits S) (m hs er ers ei eis : Int) (H : Int → S)
    (E : Int → S) : Int → S :=
  forLoop m.toNat (fillBody A hs er ers ei eis H) E

/-- The `default:` case of the switch (Francis method). -/
def invokeDefault (A : ArithTraits S) (W : Wilkinson S) (F : Francis S)
    (m hs0 hs1 er ers ei eis max_iteration : Int) (tol : S) (mem : Mem S) : Outcome S :=
  let hs := hs0 + hs1
  let r := iterate A W F tol m hs0 hs1 er ers ei eis max_iteration.toNat mem
  if r.1 then
    Outcome.ret 0 { H := r.2.H, E := fillMissing A m hs er ers ei eis r.2.H r.2.E }
  else
    Outcome.ret (-1) r.2

/-- The statement `switch (m) { case 0: .. case 1: .. case 2: .. default: .. }`
followed by `return r_val`. -/
def invokeSwitch (A : ArithTraits S) (W : Wilkinson S) (F : Francis S)
    (m hs0 hs1 er ers ei eis max_iteration : Int) (tol : S) (mem : Mem S) : Outcome S :=
  if m = 0 then
    Outcome.ret 0 mem
  else if m = 1 then
    Outcome.ret 0 { H := mem.H, E := store (store mem.E er (mem.H 0)) ei A.zero }
  else if m = 2 then
    let w := W (mem.H (0 * hs0 + 0 * hs1)) (mem.H (0 * hs0 + 1 * hs1))
      (mem.H (1 * hs0 + 0 * hs1)) (mem.H (1 * hs0 + 1 * hs1))
    let lambda1 := w.1
    let lambda2 := w.2.1
    let E1 := store mem.E er lambda1.re
    let E2 := store E1 ei lambda1.im
    let E3 := store E2 (er + 1) lambda2.re
    let E4 := store E3 (ei + 1) lambda2.im
    Outcome.ret 0 { H := mem.H, E := E4 }
  else
    invokeDefault A W F m hs0 hs1 er ers ei eis max_iteration tol mem

/-- `SerialEigenvalueInternal::invoke(m, H, hs0, hs1, er, ers, ei, eis,
max_iteration, user_tolerence, restart)`. -/
def invoke (A : ArithTraits S) (W : Wilkinson S) (F : Francis S)
    (m hs0 hs1 er ers ei eis max_iteration : Int) (user_tolerence : S) (restart : Bool)
    (mem : Mem S) : Outcome S :=
  let tol := tolOf A user_tolerence
  if restart then
    if m ≤ 2 then
      Outcome.abort mem
    else
      invokeSwitch A W F m hs0 hs1 er ers ei eis max_iteration tol mem
  else
    invokeSwitch A W F m hs0 hs1 er ers ei eis max_iteration tol
      { H := mem.H, E := initNan A m er ers mem.E }

/-- The memory with which the `switch` is reached by a call that does not
abort: untouched with `restart`, the `er` slots set to NaN otherwise. -/
def entryMem (A : ArithTraits S) (m er ers : Int) (restart : Bool) (mem : Mem S) : Mem S :=
  if restart then mem else { H := mem.H, E := initNan A m er ers mem.E }

/-- The value of `converge` and the memory when the `while` loop of a call is
left (for a call that reaches the `default:` case). -/
def loopResult (A : ArithTraits S) (W : Wilkinson S) (F : Francis S)
    (m hs0 hs1 er ers ei eis max_iteration : Int) (user_tolerence : S) (restart : Bool)
    (mem : Mem S) : Bool × Mem S :=
  iterate A W F (tolOf A user_tolerence) m hs0 hs1 er ers ei eis max_iteration.toNat
    (entryMem A m er ers restart mem)

/-- The complex interface: `e` is the address of the first real of the array of
`Kokkos::complex`, and the call is `invoke(m, H, hs0, hs1, er, 2*es, er+1, 2*es, ..)`. -/
def invokeComplex (A : ArithTraits S) (W : Wilkinson S) (F : Francis S)
    (m hs0 hs1 e es max_iteration : Int) (user_tolerence : S) (restart : Bool)
    (mem : Mem S) : Outcome S :=
  let er := e
  let ei := er + 1
  let two_es := 2 * es
  invoke A W F m hs0 hs1 er two_es ei two_es max_iteration user_tolerence restart mem

/-! ## The eigenvalues recorded by the loop -/

/-- Apply a list of records `(i, re, im)` in order, each being the two
assignments `er[i*ers] = re; ei[i*eis] = im;`. -/
def applyStores (er ers ei eis : Int) (l : List (Int × S × S)) (E : Int → S) : Int → S :=
  l.foldl (fun E w => store (store E (er + w.1 * ers) w.2.1) (ei + w.1 * eis) w.2.2) E

/-- The eigenvalues the Francis double shift block records for the window
`[mbeg, mend)`, as records `(slot, real part, imaginary part)` in the order of
the assignments: `lambda1`, `lambda2` in slots `mbeg+0`, `mbeg+1` for a window
of size 2; after the Francis step, the diagonal entry in slot `mend-1` when
the first test holds, `lambda1`, `lambda2` in slots `mend-1`, `mend-2` when the
second test holds, and nothing otherwise. -/
def blockStores (A : ArithTraits S) (W : Wilkinson S) (F : Francis S) (tol : S)
    (hs0 hs1 mbeg mend : Int) (mem : Mem S) : List (Int × S × S) :=
  let hs := hs0 + hs1
  let sub2x2 := (mend - 2) * hs
  let w := W (mem.H (sub2x2 + (0 * hs0 + 0 * hs1))) (mem.H (sub2x2 + (0 * hs0 + 1 * hs1)))
    (mem.H (sub2x2 + (1 * hs0 + 0 * hs1))) (mem.H (sub2x2 + (1 * hs0 + 1 * hs1)))
  let lambda1 := w.1
  let lambda2 := w.2.1
  let is_complex := w.2.2
  if mend - mbeg = 2 then
    [(mbeg + 0, lambda1.re, lambda1.im), (mbeg + 1, lambda2.re, lambda2.im)]
  else
    let H1 := F (mend - mbeg) (hs * mbeg) hs0 hs1 lambda1 lambda2 is_complex mem.H
    let val1 := A.abs (H1 (sub2x2 + hs0))
    let val2 := A.abs (H1 (sub2x2 - hs1))
    let ref_val1 := A.abs (H1 (sub2x2 + hs))
    let ref_val2 := A.abs (H1 sub2x2)
    if A.lt val1 (A.mul tol ref_val1) then
      [(mend - 1, H1 (sub2x2 + hs), A.zero)]
    else if A.lt val2 (A.mul tol (A.add ref_val1 ref_val2)) then
      [(mend - 1, lambda1.re, lambda1.im), (mend - 2, lambda2.re, lambda2.im)]
    else
      []

/-- The slots of `er`, `ei` written by the convergence branches during the
`while` loop: the slots recorded by the block in each iteration that finds an
active window; the first argument is the number of iterations left. -/
def loopSlots (A : ArithTraits S) (W : Wilkinson S) (F : Francis S) (tol : S)
    (m hs0 hs1 er ers ei eis : Int) : Nat → Mem S → List Int
  | 0, _ => []
  | n + 1, mem =>
    if active A tol m (hs0 + hs1) hs1 mem.H then
      (blockStores A W F tol hs0 hs1 (mbegOf A tol m (hs0 + hs1) hs1 mem.H)
          (mendOf A tol m (hs0 + hs1) hs1 mem.H) mem).map (fun w => w.1)
        ++ loopSlots A W F tol m hs0 hs1 er ers ei eis n
            (sweep A W F tol m hs0 hs1 er ers ei eis mem)
    else
      []

/-! ## The `default:` path with every access checked

The same statements as above, with each access of `H`, `er` and `ei` made
through its logical position: `H[i*hs0 + j*hs1]` may be touched only for
`0 ≤ i, j < m` and `er[i*ers]`, `ei[i*eis]` only for `0 ≤ i < m`; an access
outside these ranges makes the result `none`. -/

/-- The position `(i, j)` lies in the m x m matrix. -/
def posOk (m i j : Int) : Bool := decide (0 ≤ i ∧ i < m ∧ 0 ≤ j ∧ j < m)

/-- The index `i` lies in a vector of length m. -/
def slotOk (m i : Int) : Bool := decide (0 ≤ i ∧ i < m)

/-- Checked read of the entry `(i, j)` of `H`, at offset `i*hs0 + j*hs1`. -/
def readH (m hs0 hs1 : Int) (H : Int → S) (i j : Int) : Option S :=
  if posOk m i j then some (H (i * hs0 + j * hs1)) else none

/-- Checked write of the entry `(i, j)` of `H`. -/
def writeH (m hs0 hs1 : Int) (H : Int → S) (i j : Int) (v : S) : Option (Int → S) :=
  if posOk m i j then some (store H (i * hs0 + j * hs1) v) else none

/-- Checked read of slot `i` of the vector at address `p` with stride `st`. -/
def readE (m p st : Int) (E : Int → S) (i : Int) : Option S :=
  if slotOk m i then some (E (p + i * st)) else none

/-- Checked write of slot `i` of the vector at address `p` with stride `st`. -/
def writeE (m p st : Int) (E : Int → S) (i : Int) (v : S) : Option (Int → S) :=
  if slotOk m i then some (store E (p + i * st) v) else none

/-- A `for` loop over i = 0, .., n-1 whose body may fail. -/
def forLoopChecked {σ : Type} : Nat → (Int → σ → Option σ) → σ → Option σ
  | 0, _, s => some s
  | n + 1, body, s => (forLoopChecked n body s).bind (body (n : Int))

/-- A scan `for (;cnt<m;++cnt)` reading `val = abs(H[cnt,cnt-1])` and
`ref_val = abs(H[cnt,cnt])` and stopping when `test val ref_val` holds. -/
def scanChecked (A : ArithTraits S) (test : S → S → Bool) (m hs0 hs1 : Int) (H : Int → S) :
    Nat → Int → Option Int
  | 0, cnt => some cnt
  | n + 1, cnt =>
    match readH m hs0 hs1 H cnt (cnt - 1), readH m hs0 hs1 H cnt cnt with
    | some val, some ref_val =>
      if test (A.abs val) (A.abs ref_val) then some cnt
      else scanChecked A test m hs0 hs1 H n (cnt + 1)
    | _, _ => none

/-- The Francis double shift block with checked accesses: `sub2x2` is the
position `(mend-2, mend-2)`, and the window handed to the Francis step, of
size `mend-mbeg` at position `(mbeg, mbeg)`, has to lie in the matrix. -/
def francisBlockChecked (A : ArithTraits S) (W : Wilkinson S) (F : Francis S) (tol : S)
    (m hs0 hs1 er ers ei eis mbeg mend : Int) (mem : Mem S) : Option (Mem S) :=
  match readH m hs0 hs1 mem.H (mend - 2 + 0) (mend - 2 + 0),
      readH m hs0 hs1 mem.H (mend - 2 + 0) (mend - 2 + 1),
      readH m hs0 hs1 mem.H (mend - 2 + 1) (mend - 2 + 0),
      readH m hs0 hs1 mem.H (mend - 2 + 1) (mend - 2 + 1) with
  | some a, some b, some c, some d =>
    let w := W a b c d
    let lambda1 := w.1
    let lambda2 := w.2.1
    let is_complex := w.2.2
    if mend - mbeg = 2 then
      (writeE m er ers mem.E (mbeg + 0) lambda1.re).bind fun E1 =>
      (writeE m ei eis E1 (mbeg + 0) lambda1.im).bind fun E2 =>
      (writeE m er ers E2 (mbeg + 1) lambda2.re).bind fun E3 =>
      (writeE m ei eis E3 (mbeg + 1) lambda2.im).bind fun E4 =>
      (writeH m hs0 hs1 mem.H (mend - 2 + 1) (mend - 2 + 0) A.zero).bind fun H1 =>
      some { H := H1, E := E4 }
    else if 0 ≤ mbeg ∧ mbeg + (mend - mbeg) ≤ m then
      let H1 := F (mend - mbeg) ((hs0 + hs1) * mbeg) hs0 hs1 lambda1 lambda2 is_complex mem.H
      match readH m hs0 hs1 H1 (mend - 1) (mend - 2), readH m hs0 hs1 H1 (mend - 2) (mend - 3),
          readH m hs0 hs1 H1 (mend - 1) (mend - 1), readH m hs0 hs1 H1 (mend - 2) (mend - 2) with
      | some v1, some v2, some r1, some r2 =>
        if A.lt (A.abs v1) (A.mul tol (A.abs r1)) then
          (writeE m er ers mem.E (mend - 1) r1).bind fun E1 =>
          (writeE m ei eis E1 (mend - 1) A.zero).bind fun E2 =>
          some { H := H1, E := E2 }
        else if A.lt (A.abs v2) (A.mul tol (A.add (A.abs r1) (A.abs r2))) then
          (writeE m er ers mem.E (mend - 1) lambda1.re).bind fun E1 =>
          (writeE m ei eis E1 (mend - 1) lambda1.im).bind fun E2 =>
          (writeE m er ers E2 (mend - 2) lambda2.re).bind fun E3 =>
          (writeE m ei eis E3 (mend - 2) lambda2.im).bind fun E4 =>
          (writeH m hs0 hs1 H1 (mend - 1) (mend - 2) A.zero).bind fun H2 =>
          some { H := H2, E := E4 }
        else some { H := H1, E := mem.E }
      | _, _, _, _ => none
    else none
  | _, _, _, _ => none

/-- The `while` loop with checked accesses. -/
def iterateChecked (A : ArithTraits S) (W : Wilkinson S) (F : Francis S) (tol : S)
    (m hs0 hs1 er ers ei eis : Int) : Nat → Mem S → Option (Bool × Mem S)
  | 0, mem => some (false, mem)
  | n + 1, mem =>
    match scanChecked A (fun val ref_val => A.lt (A.mul tol ref_val) val) m hs0 hs1 mem.H
        (m - 1).toNat 1 with
    | none => none
    | some cnt =>
      match scanChecked A (fun val ref_val => A.lt val (A.mul tol ref_val)) m hs0 hs1 mem.H
          (m - cnt).toNat cnt with
      | none => none
      | some mend =>
        if cnt - 1 < mend - 1 then
          match francisBlockChecked A W F tol m hs0 hs1 er ers ei eis (cnt - 1) mend mem with
          | none => none
          | some mem1 => iterateChecked A W F tol m hs0 hs1 er ers ei eis n mem1
        else some (true, mem)

/-- Body of the loop of Step 3 with checked accesses. -/
def fillBodyChecked (A : ArithTraits S) (m hs0 hs1 er ers ei eis : Int) (H : Int → S) :
    Int → (Int → S) → Option (Int → S) :=
  fun i E =>
    match readE m er ers E i with
    | none => none
    | some v =>
      if A.isNan v then
        match readH m hs0 hs1 H i i with
        | none => none
        | some d => (writeE m er ers E i d).bind fun E1 => writeE m ei eis E1 i A.zero
      else some E

/-- The `default:` case with checked accesses. -/
def invokeDefaultChecked (A : ArithTraits S) (W : Wilkinson S) (F : Francis S)
    (m hs0 hs1 er ers ei eis max_iteration : Int) (tol : S) (mem : Mem S) :
    Option (Outcome S) :=
  match iterateChecked A W F tol m hs0 hs1 er ers ei eis max_iteration.toNat mem with
  | none => none
  | some r =>
    if r.1 then
      (forLoopChecked m.toNat (fillBodyChecked A m hs0 hs1 er ers ei eis r.2.H) r.2.E).bind
        fun E => some (Outcome.ret 0 { H := r.2.H, E := E })
    else some (Outcome.ret (-1) r.2)

/-- A call of `invoke` that reaches the `default:` case (`m` other than 0, 1,
2), with checked accesses: the `restart` test, the initialisation loop and
the `default:` case. -/
def invokeChecked (A : ArithTraits S) (W : Wilkinson S) (F : Francis S)
    (m hs0 hs1 er ers ei eis max_iteration : Int) (user_tolerence : S) (restart : Bool)
    (mem : Mem S) : Option (Outcome S) :=
  let tol := tolOf A user_tolerence
  if restart then
    if m ≤ 2 then
      some (Outcome.abort mem)
    else
      invokeDefaultChecked A W F m hs0 hs1 er ers ei eis max_iteration tol mem
  else
    (forLoopChecked m.toNat (fun i E => writeE m er ers E i A.nan) mem.E).bind fun E =>
      invokeDefaultChecked A W F m hs0 hs1 er ers ei eis max_iteration tol
        { H := mem.H, E := E }

/-! ## Buffers and loops -/

theorem store_same (f : Int → S) (a : Int) (v : S) : store f a v a = v := by
  simp [store]

theorem store_other (f : Int → S) (a x : Int) (v : S) (h : x ≠ a) : store f a v x = f x := by
  simp [store, h]

theorem outcome_eq_ret (o : Outcome S) (r : Int) (h : o.status = some r) :
    o = Outcome.ret r o.mem := by
  cases o with
  | abort mem => simp [Outcome.status] at h
  | ret r0 mem =>
    simp only [Outcome.status, Option.some.injEq] at h
    subst h
    rfl

theorem scan_all_false (stop : Int → Bool) (n : Nat) (c : Int)
    (h : ∀ k : Nat, k < n → stop (c + k) = false) : scan stop n c = c + n := by
  induction n generalizing c with
  | zero => simp [scan]
  | succ n ih =>
    have h0 : stop c = false := by simpa using h 0 (Nat.succ_pos n)
    have hn : ∀ k : Nat, k < n → stop (c + 1 + k) = false := by
      intro k hk
      have h1 := h (k + 1) (Nat.succ_lt_succ hk)
      have e : c + 1 + (k : Int) = c + ((k + 1 : Nat) : Int) := by
        push_cast
        ring
      rw [e]
      exact h1
    simp only [scan, h0, Bool.false_eq_true, if_false]
    rw [ih (c + 1) hn]
    push_cast
    ring

theorem slot_ne (er ers : Int) (hers : ers ≠ 0) (j k : Nat) (h : j ≠ k) :
    er + (j : Int) * ers ≠ er + (k : Int) * ers := by
  intro he
  have h1 : (j : Int) = (k : Int) := mul_right_cancel₀ hers (add_left_cancel he)
  exact h (by exact_mod_cast h1)

theorem initLoop_frame (v : S) (er ers : Int) (n : Nat) (E : Int → S) (a : Int)
    (h : ∀ k : Nat, k < n → a ≠ er + (k : Int) * ers) :
    forLoop n (fun i E => store E (er + i * ers) v) E a = E a := by
  induction n with
  | zero => rfl
  | succ n ih =>
    simp only [forLoop]
    rw [store_other _ _ _ _ (h n (Nat.lt_succ_self n))]
    exact ih (fun k hk => h k (Nat.lt_succ_of_lt hk))

theorem initLoop_slot (v : S) (er ers : Int) (n : Nat) (E : Int → S) (k : Nat) (hk : k < n) :
    forLoop n (fun i E => store E (er + i * ers) v) E (er + (k : Int) * ers) = v := by
  induction n with
  | zero => omega
  | succ n ih =>
    simp only [forLoop]
    by_cases he : er + (k : Int) * ers = er + (n : Int) * ers
    · rw [he, store_same]
    · rw [store_other _ _ _ _ he]
      by_cases hkn : k = n
      · subst hkn
        exact absurd rfl he
      · exact ih (by omega)

theorem fillMissing_eq (A : ArithTraits S) (m hs er ers ei eis : Int) (H E : Int → S) :
    fillMissing A m hs er ers ei eis H E
      = forLoop m.toNat (fillBody A hs er ers ei eis H) E := rfl

theorem fill_frame (A : ArithTraits S) (hs er ers ei eis : Int) (H : Int → S) (n : Nat)
    (E : Int → S) (a : Int)
    (h : ∀ k : Nat, k < n → a ≠ er + (k : Int) * ers ∧ a ≠ ei + (k : Int) * eis) :
    forLoop n (fillBody A hs er ers ei eis H) E a = E a := by
  induction n with
  | zero => rfl
  | succ n ih =>
    have ih1 := ih (fun k hk => h k (Nat.lt_succ_of_lt hk))
    have hn := h n (Nat.lt_succ_self n)
    simp only [forLoop, fillBody]
    split_ifs
    · rw [store_other _ _ _ _ hn.2, store_other _ _ _ _ hn.1]
      exact ih1
    · exact ih1

theorem fill_noNan (A : ArithTraits S) (hs er ers ei eis : Int) (H : Int → S) (n : Nat)
    (E : Int → S) (h : ∀ k : Nat, k < n → A.isNan (E (er + (k : Int) * ers)) = false) :
    forLoop n (fillBody A hs er ers ei eis H) E = E := by
  induction n with
  | zero => rfl
  | succ n ih =>
    have ih1 := ih (fun k hk => h k (Nat.lt_succ_of_lt hk))
    simp only [forLoop]
    rw [ih1]
    simp [fillBody, h n (Nat.lt_succ_self n)]

theorem fill_read (A : ArithTraits S) (hs er ers ei eis : Int) (H : Int → S) (N : Nat)
    (hers : ers ≠ 0)
    (hdisj : ∀ i j : Nat, i < N → j < N → er + (i : Int) * ers ≠ ei + (j : Int) * eis)
    (n : Nat) (E : Int → S) (j : Nat) (hnj : n ≤ j) (hj : j < N) :
    forLoop n (fillBody A hs er ers ei eis H) E (er + (j : Int) * ers)
      = E (er + (j : Int) * ers) := by
  apply fill_frame
  intro k hk
  exact ⟨slot_ne er ers hers j k (by omega), hdisj j k hj (by omega)⟩

theorem fill_er (A : ArithTraits S) (hs er ers ei eis : Int) (H : Int → S) (N : Nat)
    (hers : ers ≠ 0)
    (hdisj : ∀ i j : Nat, i < N → j < N → er + (i : Int) * ers ≠ ei + (j : Int) * eis)
    (n : Nat) (hn : n ≤ N) (E : Int → S) (k : Nat) (hk : k < n) :
    forLoop n (fillBody A hs er ers ei eis H) E (er + (k : Int) * ers)
      = if A.isNan (E (er + (k : Int) * ers)) then H ((k : Int) * hs)
        else E (er + (k : Int) * ers) := by
  induction n with
  | zero => omega
  | succ n ih =>
    have hread := fill_read A hs er ers ei eis H N hers hdisj n E n (Nat.le_refl n) (by omega)
    simp only [forLoop]
    by_cases hkn : k = n
    · subst hkn
      simp only [fillBody, hread]
      split_ifs
      · rw [store_other _ _ _ _ (hdisj k k (by omega) (by omega)), store_same]
      · exact hread
    · have hk1 : k < n := by omega
      have ih1 := ih (by omega) hk1
      by_cases hnn : A.isNan (E (er + (n : Int) * ers)) = true
      · simp only [fillBody, hread, hnn, if_true]
        rw [store_other _ _ _ _ (hdisj k n (by omega) (by omega)),
          store_other _ _ _ _ (slot_ne er ers hers k n hkn)]
        exact ih1
      · simp only [fillBody, hread, hnn, if_false]
        exact ih1

theorem fill_ei_nan (A : ArithTraits S) (hs er ers ei eis : Int) (H : Int → S) (N : Nat)
    (hers : ers ≠ 0)
    (hdisj : ∀ i j : Nat, i < N → j < N → er + (i : Int) * ers ≠ ei + (j : Int) * eis)
    (n : Nat) (hn : n ≤ N) (E : Int → S) (k : Nat) (hk : k < n)
    (hnan : A.isNan (E (er + (k : Int) * ers)) = true) :
    forLoop n (fillBody A hs er ers ei eis H) E (ei + (k : Int) * eis) = A.zero := by
  induction n with
  | zero => omega
  | succ n ih =>
    have hread := fill_read A hs er ers ei eis H N hers hdisj n E n (Nat.le_refl n) (by omega)
    simp only [forLoop]
    by_cases hkn : k = n
    · subst hkn
      simp only [fillBody, hread, hnan, if_true]
      rw [store_same]
    · have ih1 := ih (by omega) (by omega)
      simp only [fillBody, hread]
      split_ifs
      · by_cases he : ei + (k : Int) * eis = ei + (n : Int) * eis
        · rw [he, store_same]
        · rw [store_other _ _ _ _ he,
            store_other _ _ _ _ (fun h => hdisj n k (by omega) (by omega) h.symm)]
          exact ih1
      · exact ih1

theorem fill_ei_keep (A : ArithTraits S) (hs er ers ei eis : Int) (H : Int → S) (N : Nat)
    (hers : ers ≠ 0) (heis : eis ≠ 0)
    (hdisj : ∀ i j : Nat, i < N → j < N → er + (i : Int) * ers ≠ ei + (j : Int) * eis)
    (n : Nat) (hn : n ≤ N) (E : Int → S) (k : Nat) (hk : k < n)
    (hnan : A.isNan (E (er + (k : Int) * ers)) = false) :
    forLoop n (fillBody A hs er ers ei eis H) E (ei + (k : Int) * eis)
      = E (ei + (k : Int) * eis) := by
  induction n with
  | zero => omega
  | succ n ih =>
    have hread := fill_read A hs er ers ei eis H N hers hdisj n E n (Nat.le_refl n) (by omega)
    simp only [forLoop]
    by_cases hkn : k = n
    · subst hkn
      simp [fillBody, hread, hnan]
      exact fill_frame A hs er ers ei eis H k E _
        (fun j hj => ⟨fun h => hdisj j k (by omega) (by omega) h.symm,
          slot_ne ei eis heis k j (by omega)⟩)
    · have ih1 := ih (by omega) (by omega)
      simp only [fillBody, hread]
      split_ifs
      · rw [store_other _ _ _ _ (slot_ne ei eis heis k n hkn),
          store_other _ _ _ _ (fun h => hdisj n k (by omega) (by omega) h.symm)]
        exact ih1
      · exact ih1

/-! ## The main loop -/

theorem invokeSwitch_default (A : ArithTraits S) (W : Wilkinson S) (F : Francis S)
    (m hs0 hs1 er ers ei eis max_iteration : Int) (tol : S) (mem : Mem S) (hm : 3 ≤ m) :
    invokeSwitch A W F m hs0 hs1 er ers ei eis max_iteration tol mem
      = invokeDefault A W F m hs0 hs1 er ers ei eis max_iteration tol mem := by
  have h0 : m ≠ 0 := by omega
  have h1 : m ≠ 1 := by omega
  have h2 : m ≠ 2 := by omega
  simp [invokeSwitch, h0, h1, h2]

theorem invoke_default (A : ArithTraits S) (W : Wilkinson S) (F : Francis S)
    (m hs0 hs1 er ers ei eis max_iteration : Int) (user_tolerence : S) (restart : Bool)
    (mem : Mem S) (hm : 3 ≤ m) :
    invoke A W F m hs0 hs1 er ers ei eis max_iteration user_tolerence restart mem
      = invokeDefault A W F m hs0 hs1 er ers ei eis max_iteration (tolOf A user_tolerence)
          (entryMem A m er ers restart mem) := by
  have h2 : ¬ m ≤ 2 := by omega
  cases restart <;> simp [invoke, entryMem, h2, invokeSwitch_default _ _ _ _ _ _ _ _ _ _ _ _ _ hm]

theorem invokeDefault_eq (A : ArithTraits S) (W : Wilkinson S) (F : Francis S)
    (m hs0 hs1 er ers ei eis max_iteration : Int) (tol : S) (mem : Mem S) :
    invokeDefault A W F m hs0 hs1 er ers ei eis max_iteration tol mem
      = if (iterate A W F tol m hs0 hs1 er ers ei eis max_iteration.toNat mem).1 = true then
          Outcome.ret 0
            { H := (iterate A W F tol m hs0 hs1 er ers ei eis max_iteration.toNat mem).2.H,
              E := fillMissing A m (hs0 + hs1) er ers ei eis
                (iterate A W F tol m hs0 hs1 er ers ei eis max_iteration.toNat mem).2.H
                (iterate A W F tol m hs0 hs1 er ers ei eis max_iteration.toNat mem).2.E }
        else
          Outcome.ret (-1) (iterate A W F tol m hs0 hs1 er ers ei eis max_iteration.toNat mem).2 := by
  rfl

theorem iterate_false_iff (A : ArithTraits S) (W : Wilkinson S) (F : Francis S) (tol : S)
    (m hs0 hs1 er ers ei eis : Int) (n : Nat) (mem : Mem S) :
    (iterate A W F tol m hs0 hs1 er ers ei eis n mem).1 = false ↔
      ∀ k : Nat, k < n →
        active A tol m (hs0 + hs1) hs1
          ((sweep A W F tol m hs0 hs1 er ers ei eis)^[k] mem).H = true := by
  induction n generalizing mem with
  | zero => simp [iterate]
  | succ n ih =>
    by_cases hact : active A tol m (hs0 + hs1) hs1 mem.H = true
    · simp only [iterate, hact, if_true]
      rw [ih]
      constructor
      · intro h k hk
        cases k with
        | zero => simpa using hact
        | succ k =>
          rw [Function.iterate_succ_apply]
          exact h k (Nat.lt_of_succ_lt_succ hk)
      · intro h k hk
        have := h (k + 1) (Nat.succ_lt_succ hk)
        rwa [Function.iterate_succ_apply] at this
    · simp only [iterate, hact, Bool.false_eq_true, if_false]
      constructor
      · intro h
        simp at h
      · intro h
        exact absurd (by simpa using h 0 (Nat.succ_pos n)) hact

theorem iterate_true_inactive (A : ArithTraits S) (W : Wilkinson S) (F : Francis S) (tol : S)
    (m hs0 hs1 er ers ei eis : Int) (n : Nat) (mem : Mem S)
    (h : (iterate A W F tol m hs0 hs1 er ers ei eis n mem).1 = true) :
    active A tol m (hs0 + hs1) hs1
      (iterate A W F tol m hs0 hs1 er ers ei eis n mem).2.H = false := by
  induction n generalizing mem with
  | zero => simp [iterate] at h
  | succ n ih =>
    by_cases hact : active A tol m (hs0 + hs1) hs1 mem.H = true
    · simp only [iterate, hact, if_true] at h ⊢
      exact ih _ h
    · simp only [iterate, hact, Bool.false_eq_true, if_false]

theorem iterate_inactive (A : ArithTraits S) (W : Wilkinson S) (F : Francis S) (tol : S)
    (m hs0 hs1 er ers ei eis : Int) (n : Nat) (mem : Mem S) (hn : 0 < n)
    (h : active A tol m (hs0 + hs1) hs1 mem.H = false) :
    iterate A W F tol m hs0 hs1 er ers ei eis n mem = (true, mem) := by
  cases n with
  | zero => omega
  | succ n => simp [iterate, h]

theorem invokeSwitch_ret (A : ArithTraits S) (W : Wilkinson S) (F : Francis S)
    (m hs0 hs1 er ers ei eis max_iteration : Int) (tol : S) (mem : Mem S) :
    ∃ r mem1, invokeSwitch A W F m hs0 hs1 er ers ei eis max_iteration tol mem
      = Outcome.ret r mem1 := by
  unfold invokeSwitch
  rw [invokeDefault_eq]
  split_ifs <;> exact ⟨_, _, rfl⟩

/-! ## Matrices whose subdiagonal is zero -/

theorem exactTraits_lawful (K : Type) [LinearOrderedField K] (eps : K) (heps : 0 ≤ eps) :
    (exactTraits K eps).Lawful where
  isNan_nan := rfl
  default_tol := by
    have h : ¬ (100000 * eps < 0) := not_lt.mpr (mul_nonneg (by norm_num) heps)
    simp [exactTraits, h]
  abs_zero_not_gt := by
    intro t r ht
    cases t with
    | none => cases r <;> rfl
    | some t =>
      cases r with
      | none => rfl
      | some r =>
        have h0 : ¬ t < 0 := by simpa [exactTraits] using ht
        have h1 : 0 ≤ t * |r| := mul_nonneg (not_lt.mp h0) (abs_nonneg r)
        simp [exactTraits, h1]

theorem ratTraits_lawful : ratTraits.Lawful :=
  exactTraits_lawful ℚ (1 / 2 ^ 52) (by norm_num)

theorem tolOf_not_neg (A : ArithTraits S) (hA : A.Lawful) (u : S) :
    A.lt (tolOf A u) A.zero = false := by
  unfold tolOf
  by_cases h : A.lt u A.zero = true
  · simp only [h, if_true]
    exact hA.default_tol
  · simp only [h, Bool.false_eq_true, if_false]

theorem cntBeg_zeroSub (A : ArithTraits S) (hA : A.Lawful) (u : S) (m hs hs1 : Int)
    (H : Int → S) (hm : 1 ≤ m)
    (hsub : ∀ i : Int, 1 ≤ i → i < m → H (i * hs - hs1) = A.zero) :
    cntBeg A (tolOf A u) m hs hs1 H = m := by
  unfold cntBeg
  rw [scan_all_false]
  · rw [Int.toNat_of_nonneg (by omega)]
    ring
  · intro k hk
    have hk1 : (k : Int) < m - 1 := by
      have := Int.toNat_of_nonneg (show 0 ≤ m - 1 by omega)
      omega
    rw [hsub (1 + k) (by omega) (by omega)]
    exact hA.abs_zero_not_gt _ _ (tolOf_not_neg A hA u)

theorem mendOf_zeroSub (A : ArithTraits S) (hA : A.Lawful) (u : S) (m hs hs1 : Int)
    (H : Int → S) (hm : 1 ≤ m)
    (hsub : ∀ i : Int, 1 ≤ i → i < m → H (i * hs - hs1) = A.zero) :
    mendOf A (tolOf A u) m hs hs1 H = m := by
  unfold mendOf
  rw [cntBeg_zeroSub A hA u m hs hs1 H hm hsub]
  simp [scan]

theorem active_zeroSub (A : ArithTraits S) (hA : A.Lawful) (u : S) (m hs hs1 : Int)
    (H : Int → S) (hm : 1 ≤ m)
    (hsub : ∀ i : Int, 1 ≤ i → i < m → H (i * hs - hs1) = A.zero) :
    active A (tolOf A u) m hs hs1 H = false := by
  unfold active mbegOf
  rw [mendOf_zeroSub A hA u m hs hs1 H hm hsub, cntBeg_zeroSub A hA u m hs hs1 H hm hsub]
  simp

theorem invoke_zeroSub (A : ArithTraits S) (hA : A.Lawful) (W : Wilkinson S) (F : Francis S)
    (m hs0 hs1 er ers ei eis max_iteration : Int) (u : S) (mem : Mem S)
    (hm : 3 ≤ m) (hit : 1 ≤ max_iteration)
    (hsub : ∀ i : Int, 1 ≤ i → i < m → mem.H (i * (hs0 + hs1) - hs1) = A.zero) :
    invoke A W F m hs0 hs1 er ers ei eis max_iteration u false mem
      = Outcome.ret 0
          { H := mem.H,
            E := fillMissing A m (hs0 + hs1) er ers ei eis mem.H (initNan A m er ers mem.E) } := by
  rw [invoke_default A W F m hs0 hs1 er ers ei eis max_iteration u false mem hm, invokeDefault_eq]
  have hact : active A (tolOf A u) m (hs0 + hs1) hs1 (entryMem A m er ers false mem).H = false :=
    active_zeroSub A hA u m (hs0 + hs1) hs1 mem.H (by omega) hsub
  rw [iterate_inactive A W F (tolOf A u) m hs0 hs1 er ers ei eis max_iteration.toNat
    (entryMem A m er ers false mem) (by omega) hact]
  rfl

theorem int_index (m i : Int) (h0 : 0 ≤ i) (hi : i < m) :
    ((i.toNat : Nat) : Int) = i ∧ i.toNat < m.toNat := by
  constructor
  · exact Int.toNat_of_nonneg h0
  · omega

theorem disj_nat (m er ers ei eis : Int)
    (hdisj : ∀ i j : Int, 0 ≤ i → i < m → 0 ≤ j → j < m → er + i * ers ≠ ei + j * eis) :
    ∀ i j : Nat, i < m.toNat → j < m.toNat →
      er + (i : Int) * ers ≠ ei + (j : Int) * eis := by
  intro i j hi hj
  exact hdisj i j (by omega) (by omega) (by omega) (by omega)

theorem fill_after_init (A : ArithTraits S) (hA : A.Lawful) (m hs er ers ei eis : Int)
    (H E : Int → S) (hers : ers ≠ 0)
    (hdisj : ∀ i j : Int, 0 ≤ i → i < m → 0 ≤ j → j < m → er + i * ers ≠ ei + j * eis)
    (i : Int) (h0 : 0 ≤ i) (hi : i < m) :
    fillMissing A m hs er ers ei eis H (initNan A m er ers E) (er + i * ers) = H (i * hs) ∧
    fillMissing A m hs er ers ei eis H (initNan A m er ers E) (ei + i * eis) = A.zero := by
  obtain ⟨hc, hlt⟩ := int_index m i h0 hi
  have hd := disj_nat m er ers ei eis hdisj
  have hslot : initNan A m er ers E (er + (i.toNat : Int) * ers) = A.nan :=
    initLoop_slot A.nan er ers m.toNat E i.toNat hlt
  have hnan : A.isNan (initNan A m er ers E (er + (i.toNat : Int) * ers)) = true := by
    rw [hslot]
    exact hA.isNan_nan
  have h1 := fill_er A hs er ers ei eis H m.toNat hers hd m.toNat (Nat.le_refl _)
    (initNan A m er ers E) i.toNat hlt
  have h2 := fill_ei_nan A hs er ers ei eis H m.toNat hers hd m.toNat (Nat.le_refl _)
    (initNan A m er ers E) i.toNat hlt hnan
  rw [hnan, if_pos rfl, hc] at h1
  rw [hc] at h2
  exact ⟨h1, h2⟩

/-! ## Abort and status -/

/-- C9: `invoke` takes the abort path if and only if `restart = true` and
`m ≤ 2`; the memory at the abort is the memory of the call (nothing has been
written), and with `restart = false` the call never aborts. -/
theorem invoke_abort_iff (A : ArithTraits S) (W : Wilkinson S) (F : Francis S)
    (m hs0 hs1 er ers ei eis max_iteration : Int) (user_tolerence : S) (restart : Bool)
    (mem : Mem S) :
    ((∃ mem1, invoke A W F m hs0 hs1 er ers ei eis max_iteration user_tolerence restart mem
        = Outcome.abort mem1) ↔ (restart = true ∧ m ≤ 2)) ∧
    (∀ mem1, invoke A W F m hs0 hs1 er ers ei eis max_iteration user_tolerence restart mem
        = Outcome.abort mem1 → mem1 = mem) ∧
    (restart = false → ∀ mem1,
      invoke A W F m hs0 hs1 er ers ei eis max_iteration user_tolerence restart mem
        ≠ Outcome.abort mem1) := by
  have key : ∀ mem1,
      invoke A W F m hs0 hs1 er ers ei eis max_iteration user_tolerence restart mem
        = Outcome.abort mem1 → mem1 = mem ∧ restart = true ∧ m ≤ 2 := by
    intro mem1 h
    unfold invoke at h
    cases restart with
    | false =>
      obtain ⟨r, mem2, h2⟩ := invokeSwitch_ret A W F m hs0 hs1 er ers ei eis max_iteration
        (tolOf A user_tolerence) { H := mem.H, E := initNan A m er ers mem.E }
      simp [h2] at h
    | true =>
      by_cases hm : m ≤ 2
      · simp only [if_true, hm] at h
        injection h with h
        exact ⟨h.symm, rfl, hm⟩
      · obtain ⟨r, mem2, h2⟩ := invokeSwitch_ret A W F m hs0 hs1 er ers ei eis max_iteration
          (tolOf A user_tolerence) mem
        simp [hm, h2] at h
  refine ⟨⟨?_, ?_⟩, ?_, ?_⟩
  · rintro ⟨mem1, h⟩
    exact (key mem1 h).2
  · rintro ⟨hr, hm⟩
    exact ⟨mem, by simp [invoke, hr, hm]⟩
  · intro mem1 h
    exact (key mem1 h).1
  · intro hr mem1 h
    have := (key mem1 h).2.1
    rw [hr] at this
    exact Bool.noConfusion this

/-- C2: for `m ≥ 3` the call returns 0 or -1; it returns -1 exactly when every
one of the `max_iteration` iterations (none when `max_iteration ≤ 0`) finds an
active window `mbeg < mend-1` in its scan, and 0 otherwise. In particular an
input whose first N scans all find an active window gives -1 for
`max_iteration = N`. -/
theorem invoke_status (A : ArithTraits S) (W : Wilkinson S) (F : Francis S)
    (m hs0 hs1 er ers ei eis max_iteration : Int) (user_tolerence : S) (restart : Bool)
    (mem : Mem S) (hm : 3 ≤ m) :
    ((invoke A W F m hs0 hs1 er ers ei eis max_iteration user_tolerence restart mem).status
        = some 0 ∨
      (invoke A W F m hs0 hs1 er ers ei eis max_iteration user_tolerence restart mem).status
        = some (-1)) ∧
    ((invoke A W F m hs0 hs1 er ers ei eis max_iteration user_tolerence restart mem).status
        = some (-1) ↔
      ∀ k : Nat, k < max_iteration.toNat →
        active A (tolOf A user_tolerence) m (hs0 + hs1) hs1
          ((sweep A W F (tolOf A user_tolerence) m hs0 hs1 er ers ei eis)^[k]
            (entryMem A m er ers restart mem)).H = true) ∧
    (max_iteration ≤ 0 →
      (invoke A W F m hs0 hs1 er ers ei eis max_iteration user_tolerence restart mem).status
        = some (-1)) := by
  have hiff := iterate_false_iff A W F (tolOf A user_tolerence) m hs0 hs1 er ers ei eis
    max_iteration.toNat (entryMem A m er ers restart mem)
  rw [invoke_default A W F m hs0 hs1 er ers ei eis max_iteration user_tolerence restart mem hm,
    invokeDefault_eq]
  by_cases hc : (iterate A W F (tolOf A user_tolerence) m hs0 hs1 er ers ei eis
      max_iteration.toNat (entryMem A m er ers restart mem)).1 = true
  · have hnf : ¬ (iterate A W F (tolOf A user_tolerence) m hs0 hs1 er ers ei eis
        max_iteration.toNat (entryMem A m er ers restart mem)).1 = false := by
      simp [hc]
    rw [if_pos hc]
    refine ⟨Or.inl rfl, ⟨fun h => by simp [Outcome.status] at h,
      fun h => absurd (hiff.mpr h) hnf⟩, ?_⟩
    intro h0
    have hz : max_iteration.toNat = 0 := Int.toNat_eq_zero.mpr h0
    rw [hz] at hc
    simp [iterate] at hc
  · have hf : (iterate A W F (tolOf A user_tolerence) m hs0 hs1 er ers ei eis
        max_iteration.toNat (entryMem A m er ers restart mem)).1 = false := by
      simpa using hc
    rw [if_neg hc]
    exact ⟨Or.inr rfl, ⟨fun _ => hiff.mp hf, fun _ => rfl⟩, fun _ => rfl⟩

/-- Witness for C2: the 3x3 matrix diag(2,5,9) with 300 iterations. -/
theorem invoke_status_witness :
    (3 : Int) ≤ 3 ∧
    ((invoke ratTraits (wilkinsonShift ratSqrt) (francisId (Option ℚ)) 3 3 1 0 1 3 1 300
        (some (-1)) false memDiag).status = some 0 ∨
      (invoke ratTraits (wilkinsonShift ratSqrt) (francisId (Option ℚ)) 3 3 1 0 1 3 1 300
        (some (-1)) false memDiag).status = some (-1)) :=
  ⟨by decide, (invoke_status ratTraits (wilkinsonShift ratSqrt) (francisId (Option ℚ))
    3 3 1 0 1 3 1 300 (some (-1)) false memDiag (by decide)).1⟩

/-! ## Sizes 0, 1 and 2 -/

theorem invoke_two (A : ArithTraits S) (W : Wilkinson S) (F : Francis S)
    (hs0 hs1 er ers ei eis max_iteration : Int) (u : S) (mem : Mem S) :
    invoke A W F 2 hs0 hs1 er ers ei eis max_iteration u false mem
      = Outcome.ret 0
          { H := mem.H,
            E := store (store (store (store (initNan A 2 er ers mem.E) er
                (W (mem.H (0 * hs0 + 0 * hs1)) (mem.H (0 * hs0 + 1 * hs1))
                  (mem.H (1 * hs0 + 0 * hs1)) (mem.H (1 * hs0 + 1 * hs1))).1.re) ei
                (W (mem.H (0 * hs0 + 0 * hs1)) (mem.H (0 * hs0 + 1 * hs1))
                  (mem.H (1 * hs0 + 0 * hs1)) (mem.H (1 * hs0 + 1 * hs1))).1.im) (er + 1)
                (W (mem.H (0 * hs0 + 0 * hs1)) (mem.H (0 * hs0 + 1 * hs1))
                  (mem.H (1 * hs0 + 0 * hs1)) (mem.H (1 * hs0 + 1 * hs1))).2.1.re) (ei + 1)
                (W (mem.H (0 * hs0 + 0 * hs1)) (mem.H (0 * hs0 + 1 * hs1))
                  (mem.H (1 * hs0 + 0 * hs1)) (mem.H (1 * hs0 + 1 * hs1))).2.1.im } := by
  rfl

theorem store4_read (E : Int → S) (er ei : Int) (a b c d : S)
    (h1 : er ≠ ei) (h2 : er + 1 ≠ ei) (h3 : er ≠ ei + 1) :
    store (store (store (store E er a) ei b) (er + 1) c) (ei + 1) d er = a ∧
    store (store (store (store E er a) ei b) (er + 1) c) (ei + 1) d ei = b ∧
    store (store (store (store E er a) ei b) (er + 1) c) (ei + 1) d (er + 1) = c ∧
    store (store (store (store E er a) ei b) (er + 1) c) (ei + 1) d (ei + 1) = d := by
  have h4 : ei ≠ er + 1 := fun h => h2 h.symm
  have h5 : er + 1 ≠ ei + 1 := fun h => h1 (by omega)
  refine ⟨?_, ?_, ?_, ?_⟩
  · rw [store_other _ _ _ _ h3, store_other _ _ _ _ (by omega), store_other _ _ _ _ h1,
      store_same]
  · rw [store_other _ _ _ _ (by omega), store_other _ _ _ _ h4, store_same]
  · rw [store_other _ _ _ _ h5, store_same]
  · rw [store_same]

theorem wilkinsonShift_some {K : Type} [LinearOrderedField K] (sqrt : K → K)
    (a b c d : K) :
    wilkinsonShift sqrt (some a) (some b) (some c) (some d)
      = if (a + d) / 2 * ((a + d) / 2) - (a * d - b * c) < 0 then
          (⟨some ((a + d) / 2),
              some (sqrt (-((a + d) / 2 * ((a + d) / 2) - (a * d - b * c))))⟩,
            ⟨some ((a + d) / 2),
              some (-(sqrt (-((a + d) / 2 * ((a + d) / 2) - (a * d - b * c)))))⟩, true)
        else
          (⟨some ((a + d) / 2 + sqrt ((a + d) / 2 * ((a + d) / 2) - (a * d - b * c))),
              some 0⟩,
            ⟨some ((a + d) / 2 - sqrt ((a + d) / 2 * ((a + d) / 2) - (a * d - b * c))),
              some 0⟩, false) := by
  rfl

theorem wilkinsonShift_roots {K : Type} [LinearOrderedField K] (sqrt : K → K)
    (a b c d : K)
    (hsq : sqrt |(a + d) / 2 * ((a + d) / 2) - (a * d - b * c)|
        * sqrt |(a + d) / 2 * ((a + d) / 2) - (a * d - b * c)|
      = |(a + d) / 2 * ((a + d) / 2) - (a * d - b * c)|) :
    ∃ z0r z0i z1r z1i : K,
      (wilkinsonShift sqrt (some a) (some b) (some c) (some d)).1 = ⟨some z0r, some z0i⟩ ∧
      (wilkinsonShift sqrt (some a) (some b) (some c) (some d)).2.1 = ⟨some z1r, some z1i⟩ ∧
      z0r + z1r = a + d ∧ z0i + z1i = 0 ∧
      z0r * z1r - z0i * z1i = a * d - b * c ∧ z0r * z1i + z0i * z1r = 0 := by
  rw [wilkinsonShift_some]
  by_cases hv : (a + d) / 2 * ((a + d) / 2) - (a * d - b * c) < 0
  · rw [if_pos hv]
    rw [abs_of_neg hv] at hsq
    refine ⟨_, _, _, _, rfl, rfl, by ring, by ring, ?_, by ring⟩
    linear_combination hsq
  · rw [if_neg hv]
    rw [abs_of_nonneg (not_lt.mp hv)] at hsq
    refine ⟨_, _, _, _, rfl, rfl, by ring, by ring, ?_, by ring⟩
    linear_combination (-1 : K) * hsq

theorem wilkinsonShift_rotation {K : Type} [LinearOrderedField K] (sqrt : K → K)
    (h1 : sqrt 1 = 1) :
    wilkinsonShift sqrt (some 0) (some (-1)) (some 1) (some 0)
      = (⟨some 0, some 1⟩, ⟨some 0, some (-1)⟩, true) := by
  rw [wilkinsonShift_some]
  have hv : ((0 : K) + 0) / 2 * ((0 + 0) / 2) - (0 * 0 - -1 * 1) = -1 := by norm_num
  rw [hv, if_pos (by norm_num), neg_neg, h1]
  norm_num

theorem ratSqrt_one : ratSqrt 1 = 1 := by
  simp [ratSqrt]

/-- C3: for `m` in {0,1,2} and `restart = false`, in exact arithmetic with the
Wilkinson shift computed as trace/2 ± sqrt(discriminant), the call returns 0
and: for `m = 0` nothing is written; for `m = 1`, `er[0] = H[0]` and
`ei[0] = 0`; for `m = 2` the outputs `z0 = er[0] + i*ei[0]` and
`z1 = er[1] + i*ei[1]` satisfy `z0 + z1 = h00 + h11` and
`z0*z1 = h00*h11 - h01*h10` (real and imaginary parts), provided the square
root squares back to the absolute value of the discriminant; and
`[[0,-1],[1,0]]` gives `er = [0,0]`, `ei = [1,-1]` when `sqrt 1 = 1`. The
cells `er[0]`, `er[1]` are taken to be distinct from `ei[0]`, `ei[1]`. -/
theorem small_sizes_closed_form (K : Type) [LinearOrderedField K] (eps : K) (sqrt : K → K)
    (F : Francis (Option K)) (hs0 hs1 er ers ei eis max_iteration : Int)
    (user_tolerence : Option K) (mem : Mem (Option K))
    (h1 : er ≠ ei) (h2 : er + 1 ≠ ei) (h3 : er ≠ ei + 1) :
    invoke (exactTraits K eps) (wilkinsonShift sqrt) F 0 hs0 hs1 er ers ei eis max_iteration
      user_tolerence false mem = Outcome.ret 0 mem ∧
    (∃ mem1,
      invoke (exactTraits K eps) (wilkinsonShift sqrt) F 1 hs0 hs1 er ers ei eis max_iteration
        user_tolerence false mem = Outcome.ret 0 mem1 ∧
      mem1.H = mem.H ∧ mem1.E er = mem.H 0 ∧ mem1.E ei = some 0) ∧
    (∀ h00 h01 h10 h11 : K,
      mem.H 0 = some h00 → mem.H hs1 = some h01 → mem.H hs0 = some h10 →
      mem.H (hs0 + hs1) = some h11 →
      sqrt |(h00 + h11) / 2 * ((h00 + h11) / 2) - (h00 * h11 - h01 * h10)|
          * sqrt |(h00 + h11) / 2 * ((h00 + h11) / 2) - (h00 * h11 - h01 * h10)|
        = |(h00 + h11) / 2 * ((h00 + h11) / 2) - (h00 * h11 - h01 * h10)| →
      ∃ (mem1 : Mem (Option K)) (z0r z0i z1r z1i : K),
        invoke (exactTraits K eps) (wilkinsonShift sqrt) F 2 hs0 hs1 er ers ei eis
          max_iteration user_tolerence false mem = Outcome.ret 0 mem1 ∧
        mem1.H = mem.H ∧
        mem1.E er = some z0r ∧ mem1.E ei = some z0i ∧
        mem1.E (er + 1) = some z1r ∧ mem1.E (ei + 1) = some z1i ∧
        z0r + z1r = h00 + h11 ∧ z0i + z1i = 0 ∧
        z0r * z1r - z0i * z1i = h00 * h11 - h01 * h10 ∧ z0r * z1i + z0i * z1r = 0) ∧
    (mem.H 0 = some 0 → mem.H hs1 = some (-1) → mem.H hs0 = some 1 →
      mem.H (hs0 + hs1) = some 0 → sqrt 1 = 1 →
      ∃ mem1 : Mem (Option K),
        invoke (exactTraits K eps) (wilkinsonShift sqrt) F 2 hs0 hs1 er ers ei eis
          max_iteration user_tolerence false mem = Outcome.ret 0 mem1 ∧
        mem1.E er = some 0 ∧ mem1.E (er + 1) = some 0 ∧
        mem1.E ei = some 1 ∧ mem1.E (ei + 1) = some (-1)) := by
  have e00 : (0 : Int) * hs0 + 0 * hs1 = 0 := by ring
  have e01 : (0 : Int) * hs0 + 1 * hs1 = hs1 := by ring
  have e10 : (1 : Int) * hs0 + 0 * hs1 = hs0 := by ring
  have e11 : (1 : Int) * hs0 + 1 * hs1 = hs0 + hs1 := by ring
  refine ⟨rfl, ?_, ?_, ?_⟩
  · refine ⟨_, rfl, rfl, ?_, ?_⟩
    · show store (store _ er _) ei _ er = _
      rw [store_other _ _ _ _ h1, store_same]
    · show store (store _ er _) ei _ ei = _
      rw [store_same]
      rfl
  · intro h00 h01 h10 h11 e0 e1 e2 e3 hsq
    obtain ⟨z0r, z0i, z1r, z1i, hl1, hl2, hs, hi, hp, hq⟩ :=
      wilkinsonShift_roots sqrt h00 h01 h10 h11 hsq
    have hr := store4_read (initNan (exactTraits K eps) 2 er ers mem.E) er ei
    refine ⟨_, z0r, z0i, z1r, z1i, invoke_two _ _ _ _ _ _ _ _ _ _ _ _, rfl, ?_, ?_, ?_, ?_,
      hs, hi, hp, hq⟩
    · show store _ _ _ er = _
      rw [(hr _ _ _ _ h1 h2 h3).1, e00, e01, e10, e11, e0, e1, e2, e3, hl1]
    · show store _ _ _ ei = _
      rw [(hr _ _ _ _ h1 h2 h3).2.1, e00, e01, e10, e11, e0, e1, e2, e3, hl1]
    · show store _ _ _ (er + 1) = _
      rw [(hr _ _ _ _ h1 h2 h3).2.2.1, e00, e01, e10, e11, e0, e1, e2, e3, hl2]
    · show store _ _ _ (ei + 1) = _
      rw [(hr _ _ _ _ h1 h2 h3).2.2.2, e00, e01, e10, e11, e0, e1, e2, e3, hl2]
  · intro e0 e1 e2 e3 hone
    have hw := wilkinsonShift_rotation sqrt hone
    have hr := store4_read (initNan (exactTraits K eps) 2 er ers mem.E) er ei
    refine ⟨_, invoke_two _ _ _ _ _ _ _ _ _ _ _ _, ?_, ?_, ?_, ?_⟩
    · show store _ _ _ er = _
      rw [(hr _ _ _ _ h1 h2 h3).1, e00, e01, e10, e11, e0, e1, e2, e3, hw]
    · show store _ _ _ (er + 1) = _
      rw [(hr _ _ _ _ h1 h2 h3).2.2.1, e00, e01, e10, e11, e0, e1, e2, e3, hw]
    · show store _ _ _ ei = _
      rw [(hr _ _ _ _ h1 h2 h3).2.1, e00, e01, e10, e11, e0, e1, e2, e3, hw]
    · show store _ _ _ (ei + 1) = _
      rw [(hr _ _ _ _ h1 h2 h3).2.2.2, e00, e01, e10, e11, e0, e1, e2, e3, hw]

/-- Witness for C3: the matrix [[0,-1],[1,0]] over the rationals, `er` at
address 0 and `ei` at address 4, gives `er = [0,0]` and `ei = [1,-1]`. -/
theorem small_sizes_closed_form_witness :
    ∃ mem1 : Mem (Option ℚ),
      invoke ratTraits (wilkinsonShift ratSqrt) (francisId (Option ℚ)) 2 2 1 0 1 4 1 300
        (some (-1)) false memRot = Outcome.ret 0 mem1 ∧
      mem1.E 0 = some 0 ∧ mem1.E (0 + 1) = some 0 ∧
      mem1.E 4 = some 1 ∧ mem1.E (4 + 1) = some (-1) :=
  (small_sizes_closed_form ℚ (1 / 2 ^ 52) ratSqrt (francisId (Option ℚ)) 2 1 0 1 4 1 300
    (some (-1)) memRot (by decide) (by decide) (by decide)).2.2.2
    rfl rfl rfl rfl ratSqrt_one

/-! ## Where the eigenvalues of the 2x2 block are stored -/

theorem memRot_wilkinson :
    wilkinsonShift ratSqrt (memRot.H (0 * 2 + 0 * 1)) (memRot.H (0 * 2 + 1 * 1))
        (memRot.H (1 * 2 + 0 * 1)) (memRot.H (1 * 2 + 1 * 1))
      = (⟨some 0, some 1⟩, ⟨some 0, some (-1)⟩, true) :=
  wilkinsonShift_rotation ratSqrt ratSqrt_one

/-- C4, the code at the failing input `m = 2`, `ers = eis = 2` (`er` at address
0, `ei` at address 4), H = [[0,-1],[1,0]]: the second eigenvalue `0 - i` is
stored at the raw offsets `er[1]`, `ei[1]`, while the logical slot 1,
`er[1*ers]` and `ei[1*eis]`, keeps the NaN written at entry and the old
content of `ei`. -/
theorem invoke_two_strided_output :
    ∃ mem1 : Mem (Option ℚ),
      invoke ratTraits (wilkinsonShift ratSqrt) (francisId (Option ℚ)) 2 2 1 0 2 4 2 300
        (some (-1)) false memRot = Outcome.ret 0 mem1 ∧
      mem1.E (0 + 1) = some 0 ∧ mem1.E (4 + 1) = some (-1) ∧
      mem1.E (0 + 1 * 2) = none ∧ mem1.E (4 + 1 * 2) = some 7 := by
  refine ⟨_, invoke_two _ _ _ _ _ _ _ _ _ _ _ _, ?_, ?_, ?_, ?_⟩
  · simp only [memRot_wilkinson]
    rfl
  · simp only [memRot_wilkinson]
    rfl
  · rfl
  · rfl

/-- C5, the code at the failing input `m = 2`, `es = 1`, H = [[0,-1],[1,0]]:
the split-array call with unit strides (`er` at 0, `ei` at 4) gives
`er = [0,0]`, `ei = [1,-1]`, while the complex overload on an array `e` at
address 0 leaves `e[0] = (0, 0)` and `e[1] = (-1, old content)`. -/
theorem invokeComplex_two_output :
    ∃ memS memC : Mem (Option ℚ),
      invoke ratTraits (wilkinsonShift ratSqrt) (francisId (Option ℚ)) 2 2 1 0 1 4 1 300
        (some (-1)) false memRot = Outcome.ret 0 memS ∧
      invokeComplex ratTraits (wilkinsonShift ratSqrt) (francisId (Option ℚ)) 2 2 1 0 1 300
        (some (-1)) false memRot = Outcome.ret 0 memC ∧
      memS.E 0 = some 0 ∧ memS.E 4 = some 1 ∧ memS.E 1 = some 0 ∧ memS.E 5 = some (-1) ∧
      memC.E 0 = some 0 ∧ memC.E 1 = some 0 ∧ memC.E 2 = some (-1) ∧ memC.E 3 = some 7 := by
  refine ⟨_, _, invoke_two _ _ _ _ _ _ _ _ _ _ _ _,
    invoke_two ratTraits (wilkinsonShift ratSqrt) (francisId (Option ℚ)) 2 1 0 (2 * 1) (0 + 1)
      (2 * 1) 300 (some (-1)) memRot, ?_, ?_, ?_, ?_, ?_, ?_, ?_, ?_⟩
  all_goals first
    | rfl
    | (simp only [memRot_wilkinson]
       rfl)

/-- C6, the code in the pair-convergence branch taken after a Francis sweep
(window of size other than 2, first test failed, combined test passed): the
value `lambda1` is stored in the upper slot `mend-1` and `lambda2` in the lower
slot `mend-2`. The four cells written are taken to be distinct addresses. -/
theorem pair_branch_slots (A : ArithTraits S) (W : Wilkinson S) (F : Francis S) (tol : S)
    (hs0 hs1 er ers ei eis mbeg mend : Int) (mem : Mem S)
    (lambda1 lambda2 : Cplx S) (is_complex : Bool) (H1 : Int → S)
    (hW : W (mem.H ((mend - 2) * (hs0 + hs1) + (0 * hs0 + 0 * hs1)))
        (mem.H ((mend - 2) * (hs0 + hs1) + (0 * hs0 + 1 * hs1)))
        (mem.H ((mend - 2) * (hs0 + hs1) + (1 * hs0 + 0 * hs1)))
        (mem.H ((mend - 2) * (hs0 + hs1) + (1 * hs0 + 1 * hs1)))
      = (lambda1, lambda2, is_complex))
    (hF : F (mend - mbeg) ((hs0 + hs1) * mbeg) hs0 hs1 lambda1 lambda2 is_complex mem.H = H1)
    (hsize : mend - mbeg ≠ 2)
    (hval1 : A.lt (A.abs (H1 ((mend - 2) * (hs0 + hs1) + hs0)))
      (A.mul tol (A.abs (H1 ((mend - 2) * (hs0 + hs1) + (hs0 + hs1))))) = false)
    (hval2 : A.lt (A.abs (H1 ((mend - 2) * (hs0 + hs1) - hs1)))
      (A.mul tol (A.add (A.abs (H1 ((mend - 2) * (hs0 + hs1) + (hs0 + hs1))))
        (A.abs (H1 ((mend - 2) * (hs0 + hs1)))))) = true)
    (hers : ers ≠ 0) (heis : eis ≠ 0)
    (h11 : er + (mend - 1) * ers ≠ ei + (mend - 1) * eis)
    (h12 : er + (mend - 1) * ers ≠ ei + (mend - 2) * eis)
    (h21 : er + (mend - 2) * ers ≠ ei + (mend - 1) * eis)
    (h22 : er + (mend - 2) * ers ≠ ei + (mend - 2) * eis) :
    (francisBlock A W F tol hs0 hs1 er ers ei eis mbeg mend mem).E (er + (mend - 2) * ers)
      = lambda2.re ∧
    (francisBlock A W F tol hs0 hs1 er ers ei eis mbeg mend mem).E (ei + (mend - 2) * eis)
      = lambda2.im ∧
    (francisBlock A W F tol hs0 hs1 er ers ei eis mbeg mend mem).E (er + (mend - 1) * ers)
      = lambda1.re ∧
    (francisBlock A W F tol hs0 hs1 er ers ei eis mbeg mend mem).E (ei + (mend - 1) * eis)
      = lambda1.im := by
  have ha : er + (mend - 1) * ers ≠ er + (mend - 2) * ers := by
    intro h
    have := mul_right_cancel₀ hers (add_left_cancel h)
    omega
  have hb : ei + (mend - 1) * eis ≠ ei + (mend - 2) * eis := by
    intro h
    have := mul_right_cancel₀ heis (add_left_cancel h)
    omega
  simp only [francisBlock, hW, hF, hsize, if_false, hval1, hval2, if_true, Bool.false_eq_true]
  refine ⟨?_, ?_, ?_, ?_⟩
  · rw [store_other _ _ _ _ h22, store_same]
  · rw [store_same]
  · rw [store_other _ _ _ _ h12, store_other _ _ _ _ ha, store_other _ _ _ _ h11, store_same]
  · rw [store_other _ _ _ _ hb, store_other _ _ _ _ (fun h => h21 h.symm), store_same]

/-- Witness for C6: the window `[0, 3)` of [[1,0,0],[3/2,1,-1],[0,1,1]] with
tolerance 1 and a Francis step that leaves the matrix as it is; the Wilkinson
pair of the trailing block [[1,-1],[1,1]] is `1 + i`, `1 - i`, and the lower
slot 1 receives `1 - i`, the upper slot 2 receives `1 + i`. -/
theorem pair_branch_slots_witness :
    (francisBlock ratTraits (wilkinsonShift ratSqrt) (francisId (Option ℚ)) (some 1)
        3 1 0 1 3 1 0 3 memPair).E (0 + (3 - 2) * 1) = some 1 ∧
    (francisBlock ratTraits (wilkinsonShift ratSqrt) (francisId (Option ℚ)) (some 1)
        3 1 0 1 3 1 0 3 memPair).E (3 + (3 - 2) * 1) = some (-1) ∧
    (francisBlock ratTraits (wilkinsonShift ratSqrt) (francisId (Option ℚ)) (some 1)
        3 1 0 1 3 1 0 3 memPair).E (0 + (3 - 1) * 1) = some 1 ∧
    (francisBlock ratTraits (wilkinsonShift ratSqrt) (francisId (Option ℚ)) (some 1)
        3 1 0 1 3 1 0 3 memPair).E (3 + (3 - 1) * 1) = some 1 :=
  pair_branch_slots ratTraits (wilkinsonShift ratSqrt) (francisId (Option ℚ)) (some 1)
    3 1 0 1 3 1 0 3 memPair ⟨some 1, some 1⟩ ⟨some 1, some (-1)⟩ true memPair.H
    (by
      show wilkinsonShift ratSqrt (some 1) (some (-1)) (some 1) (some 1) = _
      rw [wilkinsonShift_some]
      have hv : ((1 : ℚ) + 1) / 2 * ((1 + 1) / 2) - (1 * 1 - -1 * 1) = -1 := by norm_num
      rw [hv, if_pos (by norm_num), neg_neg, ratSqrt_one]
      norm_num)
    rfl (by decide)
    (by
      show ratTraits.lt (ratTraits.abs (some 1)) (ratTraits.mul (some 1) (ratTraits.abs (some 1)))
        = false
      simp [ratTraits, exactTraits])
    (by
      show ratTraits.lt (ratTraits.abs (some (3 / 2)))
        (ratTraits.mul (some 1) (ratTraits.add (ratTraits.abs (some 1)) (ratTraits.abs (some 1))))
        = true
      simp only [ratTraits, exactTraits]
      norm_num [abs_lt])
    (by decide) (by decide) (by decide) (by decide) (by decide) (by decide)

/-! ## Step 3 and restart -/

/-- C8: for `m ≥ 3`, a matrix whose subdiagonal entries `H[i,i-1]` are all
exactly zero, `restart = false` and `max_iteration ≥ 1`: the first scan finds
`mbeg = mend-1`, the loop ends converged with the memory it started with (no
sweep), `H` is left unchanged and the call returns 0 with `er[i*ers] = H[i*hs]`
and `ei[i*eis] = 0` for every `i`. The slots of `er` are taken to be distinct
addresses, none of them a slot of `ei`. -/
theorem zero_subdiagonal_converges (A : ArithTraits S) (hA : A.Lawful) (W : Wilkinson S)
    (F : Francis S) (m hs0 hs1 er ers ei eis max_iteration : Int) (user_tolerence : S)
    (mem : Mem S) (hm : 3 ≤ m) (hit : 1 ≤ max_iteration)
    (hsub : ∀ i : Int, 1 ≤ i → i < m → mem.H (i * (hs0 + hs1) - hs1) = A.zero)
    (hers : ers ≠ 0)
    (hdisj : ∀ i j : Int, 0 ≤ i → i < m → 0 ≤ j → j < m → er + i * ers ≠ ei + j * eis) :
    mbegOf A (tolOf A user_tolerence) m (hs0 + hs1) hs1 mem.H
      = mendOf A (tolOf A user_tolerence) m (hs0 + hs1) hs1 mem.H - 1 ∧
    loopResult A W F m hs0 hs1 er ers ei eis max_iteration user_tolerence false mem
      = (true, entryMem A m er ers false mem) ∧
    ∃ mem1,
      invoke A W F m hs0 hs1 er ers ei eis max_iteration user_tolerence false mem
        = Outcome.ret 0 mem1 ∧
      mem1.H = mem.H ∧
      ∀ i : Int, 0 ≤ i → i < m →
        mem1.E (er + i * ers) = mem.H (i * (hs0 + hs1)) ∧ mem1.E (ei + i * eis) = A.zero := by
  refine ⟨?_, ?_, ?_⟩
  · unfold mbegOf
    rw [mendOf_zeroSub A hA user_tolerence m (hs0 + hs1) hs1 mem.H (by omega) hsub,
      cntBeg_zeroSub A hA user_tolerence m (hs0 + hs1) hs1 mem.H (by omega) hsub]
  · unfold loopResult
    exact iterate_inactive A W F (tolOf A user_tolerence) m hs0 hs1 er ers ei eis
      max_iteration.toNat (entryMem A m er ers false mem) (by omega)
      (active_zeroSub A hA user_tolerence m (hs0 + hs1) hs1 mem.H (by omega) hsub)
  · refine ⟨_, invoke_zeroSub A hA W F m hs0 hs1 er ers ei eis max_iteration user_tolerence
      mem hm hit hsub, rfl, ?_⟩
    intro i h0 hi
    exact fill_after_init A hA m (hs0 + hs1) er ers ei eis mem.H mem.E hers hdisj i h0 hi

/-- C10: for `m ≥ 3`, when a call returned 0 and left no NaN in the slots of
`er`, a second call on the resulting memory with `restart = true`, the same
tolerance and `max_iteration ≥ 1` finds no active window in its first scan,
leaves the loop converged with the memory unchanged (no sweep), and returns 0
with every entry of `H`, `er` and `ei` unchanged. -/
theorem restart_converged_noop (A : ArithTraits S) (W : Wilkinson S) (F : Francis S)
    (m hs0 hs1 er ers ei eis max_iteration max_iteration2 : Int) (user_tolerence : S)
    (restart : Bool) (mem mem1 : Mem S) (hm : 3 ≤ m)
    (hfirst : invoke A W F m hs0 hs1 er ers ei eis max_iteration user_tolerence restart mem
      = Outcome.ret 0 mem1)
    (hnan : ∀ i : Int, 0 ≤ i → i < m → A.isNan (mem1.E (er + i * ers)) = false)
    (hit : 1 ≤ max_iteration2) :
    active A (tolOf A user_tolerence) m (hs0 + hs1) hs1 mem1.H = false ∧
    loopResult A W F m hs0 hs1 er ers ei eis max_iteration2 user_tolerence true mem1
      = (true, mem1) ∧
    invoke A W F m hs0 hs1 er ers ei eis max_iteration2 user_tolerence true mem1
      = Outcome.ret 0 mem1 := by
  have hact : active A (tolOf A user_tolerence) m (hs0 + hs1) hs1 mem1.H = false := by
    rw [invoke_default A W F m hs0 hs1 er ers ei eis max_iteration user_tolerence restart mem hm,
      invokeDefault_eq] at hfirst
    by_cases hc : (iterate A W F (tolOf A user_tolerence) m hs0 hs1 er ers ei eis
        max_iteration.toNat (entryMem A m er ers restart mem)).1 = true
    · rw [if_pos hc] at hfirst
      injection hfirst with _ hmem
      rw [← hmem]
      exact iterate_true_inactive A W F (tolOf A user_tolerence) m hs0 hs1 er ers ei eis
        max_iteration.toNat (entryMem A m er ers restart mem) hc
    · rw [if_neg hc] at hfirst
      injection hfirst with hr _
      omega
  have hloop : iterate A W F (tolOf A user_tolerence) m hs0 hs1 er ers ei eis
      max_iteration2.toNat mem1 = (true, mem1) :=
    iterate_inactive A W F (tolOf A user_tolerence) m hs0 hs1 er ers ei eis
      max_iteration2.toNat mem1 (by omega) hact
  refine ⟨hact, ?_, ?_⟩
  · unfold loopResult entryMem
    simpa using hloop
  · rw [invoke_default A W F m hs0 hs1 er ers ei eis max_iteration2 user_tolerence true mem1 hm,
      invokeDefault_eq]
    have he : entryMem A m er ers true mem1 = mem1 := rfl
    rw [he, hloop]
    simp only [if_true]
    rw [fillMissing_eq, fill_noNan]
    intro k hk
    exact hnan k (by omega) (by omega)

theorem memDiag_zeroSub :
    ∀ i : Int, 1 ≤ i → i < 3 → memDiag.H (i * (3 + 1) - 1) = ratTraits.zero := by
  intro i h1 h3
  have h : i = 1 ∨ i = 2 := by omega
  rcases h with h | h <;> subst h <;> rfl

theorem diag_disjoint :
    ∀ i j : Int, 0 ≤ i → i < 3 → 0 ≤ j → j < 3 → (0 : Int) + i * 1 ≠ 3 + j * 1 := by
  intro i j _ _ _ _
  omega

/-- Witness for C8: diag(2,5,9) gives status 0, `er = [2,5,9]` (addresses 0..2)
and `ei = [0,0,0]` (addresses 3..5). -/
theorem zero_subdiagonal_converges_witness :
    ∃ mem1 : Mem (Option ℚ),
      invoke ratTraits (wilkinsonShift ratSqrt) (francisId (Option ℚ)) 3 3 1 0 1 3 1 300
        (some (-1)) false memDiag = Outcome.ret 0 mem1 ∧
      mem1.E 0 = some 2 ∧ mem1.E 1 = some 5 ∧ mem1.E 2 = some 9 ∧
      mem1.E 3 = some 0 ∧ mem1.E 4 = some 0 ∧ mem1.E 5 = some 0 := by
  obtain ⟨_, _, mem1, h, _, hE⟩ :=
    zero_subdiagonal_converges ratTraits ratTraits_lawful (wilkinsonShift ratSqrt)
      (francisId (Option ℚ)) 3 3 1 0 1 3 1 300 (some (-1)) memDiag (by decide) (by decide)
      memDiag_zeroSub (by decide) diag_disjoint
  have h0 := hE 0 (by decide) (by decide)
  have h1 := hE 1 (by decide) (by decide)
  have h2 := hE 2 (by decide) (by decide)
  exact ⟨mem1, h, h0.1, h1.1, h2.1, h0.2, h1.2, h2.2⟩

/-- Witness for C10: the call on diag(2,5,9) followed by a call with
`restart = true` on the memory it left. -/
theorem restart_converged_noop_witness :
    invoke ratTraits (wilkinsonShift ratSqrt) (francisId (Option ℚ)) 3 3 1 0 1 3 1 5
        (some (-1)) true
        (invoke ratTraits (wilkinsonShift ratSqrt) (francisId (Option ℚ)) 3 3 1 0 1 3 1 300
          (some (-1)) false memDiag).mem
      = Outcome.ret 0
        (invoke ratTraits (wilkinsonShift ratSqrt) (francisId (Option ℚ)) 3 3 1 0 1 3 1 300
          (some (-1)) false memDiag).mem := by
  have hz := invoke_zeroSub ratTraits ratTraits_lawful (wilkinsonShift ratSqrt)
    (francisId (Option ℚ)) 3 3 1 0 1 3 1 300 (some (-1)) memDiag (by decide) (by decide)
    memDiag_zeroSub
  refine (restart_converged_noop ratTraits (wilkinsonShift ratSqrt) (francisId (Option ℚ))
    3 3 1 0 1 3 1 300 5 (some (-1)) false memDiag _ (by decide) ?_ ?_ (by decide)).2.2
  · rw [hz]
    rfl
  · intro i h0 h3
    rw [hz]
    have hf := (fill_after_init ratTraits ratTraits_lawful 3 (3 + 1) 0 1 3 1 memDiag.H
      memDiag.E (by decide) diag_disjoint i h0 h3).1
    show ratTraits.isNan (fillMissing ratTraits 3 (3 + 1) 0 1 3 1 memDiag.H
      (initNan ratTraits 3 0 1 memDiag.E) (0 + i * 1)) = false
    rw [hf]
    have h : i = 0 ∨ i = 1 ∨ i = 2 := by omega
    rcases h with h | h | h <;> subst h <;> rfl

/-! ## The scans of Step 1 -/

theorem scan_ge (stop : Int → Bool) (n : Nat) (c : Int) : c ≤ scan stop n c := by
  induction n generalizing c with
  | zero => simp [scan]
  | succ n ih =>
    simp only [scan]
    split_ifs
    · exact le_refl c
    · have := ih (c + 1)
      omega

theorem scan_le (stop : Int → Bool) (n : Nat) (c : Int) : scan stop n c ≤ c + n := by
  induction n generalizing c with
  | zero => simp [scan]
  | succ n ih =>
    simp only [scan]
    split_ifs
    · push_cast
      omega
    · have := ih (c + 1)
      push_cast
      omega

theorem scan_before (stop : Int → Bool) (n : Nat) (c k : Int) (hck : c ≤ k)
    (hk : k < scan stop n c) : stop k = false := by
  induction n generalizing c with
  | zero =>
    simp only [scan] at hk
    omega
  | succ n ih =>
    simp only [scan] at hk
    by_cases hs : stop c = true
    · simp only [hs, if_true] at hk
      omega
    · simp only [hs, Bool.false_eq_true, if_false] at hk
      by_cases he : k = c
      · subst he
        simpa using hs
      · exact ih (c + 1) (by omega) hk

theorem scan_stop (stop : Int → Bool) (n : Nat) (c : Int) (h : scan stop n c < c + n) :
    stop (scan stop n c) = true := by
  induction n generalizing c with
  | zero =>
    simp only [scan] at h
    simp at h
  | succ n ih =>
    by_cases hs : stop c = true
    · simp only [scan, hs, if_true]
    · simp only [scan, hs, Bool.false_eq_true, if_false] at h ⊢
      apply ih
      push_cast at h
      omega

theorem scan_ge_of_false (stop : Int → Bool) (n : Nat) (c b : Int) (hb : b ≤ c + n)
    (h : ∀ k : Int, c ≤ k → k < b → stop k = false) : b ≤ scan stop n c := by
  by_contra hlt
  have h1 : scan stop n c < c + n := by omega
  have h2 := scan_stop stop n c h1
  have h3 := h (scan stop n c) (scan_ge stop n c) (by omega)
  rw [h3] at h2
  exact Bool.noConfusion h2

theorem cntBeg_bounds (A : ArithTraits S) (tol : S) (m hs hs1 : Int) (H : Int → S)
    (hm : 1 ≤ m) :
    1 ≤ cntBeg A tol m hs hs1 H ∧ cntBeg A tol m hs hs1 H ≤ m := by
  unfold cntBeg
  constructor
  · exact scan_ge _ _ _
  · have := scan_le (fun cnt => A.lt (A.mul tol (A.abs (H (cnt * hs))))
      (A.abs (H (cnt * hs - hs1)))) (m - 1).toNat 1
    omega

theorem cntBeg_before (A : ArithTraits S) (tol : S) (m hs hs1 : Int) (H : Int → S)
    (k : Int) (h1 : 1 ≤ k) (hk : k < cntBeg A tol m hs hs1 H) :
    A.lt (A.mul tol (A.abs (H (k * hs)))) (A.abs (H (k * hs - hs1))) = false :=
  scan_before (fun cnt => A.lt (A.mul tol (A.abs (H (cnt * hs))))
    (A.abs (H (cnt * hs - hs1)))) (m - 1).toNat 1 k h1 hk

theorem cntBeg_stop (A : ArithTraits S) (tol : S) (m hs hs1 : Int) (H : Int → S)
    (hm : 1 ≤ m) (h : cntBeg A tol m hs hs1 H < m) :
    A.lt (A.mul tol (A.abs (H (cntBeg A tol m hs hs1 H * hs))))
      (A.abs (H (cntBeg A tol m hs hs1 H * hs - hs1))) = true :=
  scan_stop (fun cnt => A.lt (A.mul tol (A.abs (H (cnt * hs))))
    (A.abs (H (cnt * hs - hs1)))) (m - 1).toNat 1 (by unfold cntBeg at h; omega)

theorem mendOf_bounds (A : ArithTraits S) (tol : S) (m hs hs1 : Int) (H : Int → S)
    (hm : 1 ≤ m) :
    cntBeg A tol m hs hs1 H ≤ mendOf A tol m hs hs1 H ∧ mendOf A tol m hs hs1 H ≤ m := by
  have hc := cntBeg_bounds A tol m hs hs1 H hm
  unfold mendOf
  constructor
  · exact scan_ge _ _ _
  · have := scan_le (fun cnt => A.lt (A.abs (H (cnt * hs - hs1)))
      (A.mul tol (A.abs (H (cnt * hs))))) (m - cntBeg A tol m hs hs1 H).toNat
      (cntBeg A tol m hs hs1 H)
    omega

theorem mendOf_before (A : ArithTraits S) (tol : S) (m hs hs1 : Int) (H : Int → S)
    (k : Int) (h1 : cntBeg A tol m hs hs1 H ≤ k) (hk : k < mendOf A tol m hs hs1 H) :
    A.lt (A.abs (H (k * hs - hs1))) (A.mul tol (A.abs (H (k * hs)))) = false :=
  scan_before (fun cnt => A.lt (A.abs (H (cnt * hs - hs1)))
    (A.mul tol (A.abs (H (cnt * hs))))) (m - cntBeg A tol m hs hs1 H).toNat
    (cntBeg A tol m hs hs1 H) k h1 hk

theorem mendOf_stop (A : ArithTraits S) (tol : S) (m hs hs1 : Int) (H : Int → S)
    (hm : 1 ≤ m) (h : mendOf A tol m hs hs1 H < m) :
    A.lt (A.abs (H (mendOf A tol m hs hs1 H * hs - hs1)))
      (A.mul tol (A.abs (H (mendOf A tol m hs hs1 H * hs)))) = true := by
  have hc := cntBeg_bounds A tol m hs hs1 H hm
  exact scan_stop (fun cnt => A.lt (A.abs (H (cnt * hs - hs1)))
    (A.mul tol (A.abs (H (cnt * hs))))) (m - cntBeg A tol m hs hs1 H).toNat
    (cntBeg A tol m hs hs1 H) (by unfold mendOf at h; omega)

theorem window_bounds (A : ArithTraits S) (tol : S) (m hs hs1 : Int) (H : Int → S)
    (hm : 1 ≤ m) :
    0 ≤ mbegOf A tol m hs hs1 H ∧ mbegOf A tol m hs hs1 H < mendOf A tol m hs hs1 H ∧
      mendOf A tol m hs hs1 H ≤ m := by
  have hc := cntBeg_bounds A tol m hs hs1 H hm
  have he := mendOf_bounds A tol m hs hs1 H hm
  unfold mbegOf
  omega

theorem active_iff_cntBeg (A : ArithTraits S) (tol : S) (m hs hs1 : Int) (H : Int → S)
    (hm : 1 ≤ m) (hasym : ∀ a b : S, A.lt a b = true → A.lt b a = false) :
    active A tol m hs hs1 H = false ↔ cntBeg A tol m hs hs1 H = m := by
  have hc := cntBeg_bounds A tol m hs hs1 H hm
  have he := mendOf_bounds A tol m hs hs1 H hm
  unfold active mbegOf
  rw [decide_eq_false_iff_not]
  constructor
  · intro h
    by_contra hne
    have hlt : cntBeg A tol m hs hs1 H < m := by omega
    have h1 := hasym _ _ (cntBeg_stop A tol m hs hs1 H hm hlt)
    have heq : mendOf A tol m hs hs1 H = cntBeg A tol m hs hs1 H := by omega
    have h2 := mendOf_stop A tol m hs hs1 H hm (by omega)
    rw [heq, h1] at h2
    exact Bool.noConfusion h2
  · intro h
    omega

theorem exactTraits_asym (K : Type) [LinearOrderedField K] (eps : K) (a b : Option K)
    (h : (exactTraits K eps).lt a b = true) : (exactTraits K eps).lt b a = false := by
  cases a with
  | none => simp [exactTraits] at h
  | some a =>
    cases b with
    | none => simp [exactTraits] at h
    | some b =>
      have hab : a < b := by simpa [exactTraits] using h
      simp [exactTraits, le_of_lt hab]

theorem tolOf_exact (K : Type) [LinearOrderedField K] (eps u : K) :
    tolOf (exactTraits K eps) (some u) = some (if u < 0 then 100000 * eps else u) := by
  unfold tolOf
  by_cases h : u < 0 <;> simp [exactTraits, h]

theorem francisBlock_after_sweep (A : ArithTraits S) (W : Wilkinson S) (F : Francis S)
    (tol : S) (hs0 hs1 er ers ei eis mbeg mend : Int) (mem : Mem S)
    (lambda1 lambda2 : Cplx S) (is_complex : Bool) (H1 : Int → S)
    (hW : W (mem.H ((mend - 2) * hs0 + (mend - 2) * hs1))
        (mem.H ((mend - 2) * hs0 + (mend - 1) * hs1))
        (mem.H ((mend - 1) * hs0 + (mend - 2) * hs1))
        (mem.H ((mend - 1) * hs0 + (mend - 1) * hs1))
      = (lambda1, lambda2, is_complex))
    (hF : F (mend - mbeg) ((hs0 + hs1) * mbeg) hs0 hs1 lambda1 lambda2 is_complex mem.H = H1)
    (hne : ¬ mend - mbeg = 2) :
    francisBlock A W F tol hs0 hs1 er ers ei eis mbeg mend mem
      = if A.lt (A.abs (H1 ((mend - 1) * hs0 + (mend - 2) * hs1)))
          (A.mul tol (A.abs (H1 ((mend - 1) * hs0 + (mend - 1) * hs1)))) = true then
          { H := H1,
            E := store (store mem.E (er + (mend - 1) * ers)
                  (H1 ((mend - 1) * hs0 + (mend - 1) * hs1)))
                (ei + (mend - 1) * eis) A.zero }
        else if A.lt (A.abs (H1 ((mend - 2) * hs0 + (mend - 3) * hs1)))
          (A.mul tol (A.add (A.abs (H1 ((mend - 1) * hs0 + (mend - 1) * hs1)))
            (A.abs (H1 ((mend - 2) * hs0 + (mend - 2) * hs1))))) = true then
          { H := store H1 ((mend - 1) * hs0 + (mend - 2) * hs1) A.zero,
            E := store (store (store (store mem.E (er + (mend - 1) * ers) lambda1.re)
                  (ei + (mend - 1) * eis) lambda1.im)
                  (er + (mend - 2) * ers) lambda2.re)
                (ei + (mend - 2) * eis) lambda2.im }
        else { H := H1, E := mem.E } := by
  have e00 : (mend - 2) * (hs0 + hs1) + (0 * hs0 + 0 * hs1)
      = (mend - 2) * hs0 + (mend - 2) * hs1 := by ring
  have e01 : (mend - 2) * (hs0 + hs1) + (0 * hs0 + 1 * hs1)
      = (mend - 2) * hs0 + (mend - 1) * hs1 := by ring
  have e10 : (mend - 2) * (hs0 + hs1) + (1 * hs0 + 0 * hs1)
      = (mend - 1) * hs0 + (mend - 2) * hs1 := by ring
  have e11 : (mend - 2) * (hs0 + hs1) + (1 * hs0 + 1 * hs1)
      = (mend - 1) * hs0 + (mend - 1) * hs1 := by ring
  have ev1 : (mend - 2) * (hs0 + hs1) + hs0 = (mend - 1) * hs0 + (mend - 2) * hs1 := by ring
  have ev2 : (mend - 2) * (hs0 + hs1) - hs1 = (mend - 2) * hs0 + (mend - 3) * hs1 := by ring
  have er1 : (mend - 2) * (hs0 + hs1) + (hs0 + hs1)
      = (mend - 1) * hs0 + (mend - 1) * hs1 := by ring
  have er2 : (mend - 2) * (hs0 + hs1) = (mend - 2) * hs0 + (mend - 2) * hs1 := by ring
  unfold francisBlock
  simp only [e00, e01, e10, e11, hW, hF, hne, if_false]
  rw [ev1, ev2, er1, er2]

/-- C14: after the Francis sweep on a window of size at least 3 (`H1` is the
matrix it leaves, `lambda1`, `lambda2` the Wilkinson values computed before
it) exactly one of three outcomes applies. (i) If
`|H1[mend-1,mend-2]| < tol*|H1[mend-1,mend-1]|`: only slot `mend-1` is written,
with `er = H1[mend-1,mend-1]` and `ei = 0`, and the matrix is `H1`.
(ii) Otherwise, if `|H1[mend-2,mend-3]| < tol*(|H1[mend-1,mend-1]| +
|H1[mend-2,mend-2]|)`: slot `mend-1` gets `lambda1`, slot `mend-2` gets
`lambda2`, and `H1[mend-1,mend-2]` is set to zero. (iii) Otherwise nothing is
written to `er`, `ei` and the matrix is `H1`. -/
theorem post_francis_outcomes (A : ArithTraits S) (W : Wilkinson S) (F : Francis S) (tol : S)
    (hs0 hs1 er ers ei eis mbeg mend : Int) (mem : Mem S)
    (lambda1 lambda2 : Cplx S) (is_complex : Bool) (H1 : Int → S)
    (hW : W (mem.H ((mend - 2) * hs0 + (mend - 2) * hs1))
        (mem.H ((mend - 2) * hs0 + (mend - 1) * hs1))
        (mem.H ((mend - 1) * hs0 + (mend - 2) * hs1))
        (mem.H ((mend - 1) * hs0 + (mend - 1) * hs1))
      = (lambda1, lambda2, is_complex))
    (hF : F (mend - mbeg) ((hs0 + hs1) * mbeg) hs0 hs1 lambda1 lambda2 is_complex mem.H = H1)
    (hsize : 3 ≤ mend - mbeg) :
    (A.lt (A.abs (H1 ((mend - 1) * hs0 + (mend - 2) * hs1)))
        (A.mul tol (A.abs (H1 ((mend - 1) * hs0 + (mend - 1) * hs1)))) = true →
      francisBlock A W F tol hs0 hs1 er ers ei eis mbeg mend mem
        = { H := H1,
            E := store (store mem.E (er + (mend - 1) * ers)
                  (H1 ((mend - 1) * hs0 + (mend - 1) * hs1)))
                (ei + (mend - 1) * eis) A.zero }) ∧
    (A.lt (A.abs (H1 ((mend - 1) * hs0 + (mend - 2) * hs1)))
        (A.mul tol (A.abs (H1 ((mend - 1) * hs0 + (mend - 1) * hs1)))) = false →
      A.lt (A.abs (H1 ((mend - 2) * hs0 + (mend - 3) * hs1)))
        (A.mul tol (A.add (A.abs (H1 ((mend - 1) * hs0 + (mend - 1) * hs1)))
          (A.abs (H1 ((mend - 2) * hs0 + (mend - 2) * hs1))))) = true →
      francisBlock A W F tol hs0 hs1 er ers ei eis mbeg mend mem
        = { H := store H1 ((mend - 1) * hs0 + (mend - 2) * hs1) A.zero,
            E := store (store (store (store mem.E (er + (mend - 1) * ers) lambda1.re)
                  (ei + (mend - 1) * eis) lambda1.im)
                  (er + (mend - 2) * ers) lambda2.re)
                (ei + (mend - 2) * eis) lambda2.im }) ∧
    (A.lt (A.abs (H1 ((mend - 1) * hs0 + (mend - 2) * hs1)))
        (A.mul tol (A.abs (H1 ((mend - 1) * hs0 + (mend - 1) * hs1)))) = false →
      A.lt (A.abs (H1 ((mend - 2) * hs0 + (mend - 3) * hs1)))
        (A.mul tol (A.add (A.abs (H1 ((mend - 1) * hs0 + (mend - 1) * hs1)))
          (A.abs (H1 ((mend - 2) * hs0 + (mend - 2) * hs1))))) = false →
      francisBlock A W F tol hs0 hs1 er ers ei eis mbeg mend mem = { H := H1, E := mem.E }) := by
  have hfb := francisBlock_after_sweep A W F tol hs0 hs1 er ers ei eis mbeg mend mem
    lambda1 lambda2 is_complex H1 hW hF (by omega)
  rw [hfb]
  refine ⟨?_, ?_, ?_⟩
  · intro h1
    rw [if_pos h1]
  · intro h1 h2
    rw [if_neg (by simp [h1]), if_pos h2]
  · intro h1 h2
    rw [if_neg (by simp [h1]), if_neg (by simp [h2])]

theorem memPair_wilkinson :
    wilkinsonShift ratSqrt (some 1) (some (-1)) (some 1) (some 1)
      = (⟨some 1, some 1⟩, ⟨some 1, some (-1)⟩, true) := by
  rw [wilkinsonShift_some]
  have hv : ((1 : ℚ) + 1) / 2 * ((1 + 1) / 2) - (1 * 1 - -1 * 1) = -1 := by norm_num
  rw [hv, if_pos (by norm_num), neg_neg, ratSqrt_one]
  norm_num

/-- Witness for C14: the window `[0, 3)` of [[1,0,0],[3/2,1,-1],[0,1,1]] with
tolerance 1 and a Francis step that leaves the matrix as it is takes outcome
(ii): slot 2 gets `1 + i`, slot 1 gets `1 - i`, and `H[2,1]` is set to zero. -/
theorem post_francis_outcomes_witness :
    francisBlock ratTraits (wilkinsonShift ratSqrt) (francisId (Option ℚ)) (some 1)
        3 1 0 1 3 1 0 3 memPair
      = { H := store memPair.H ((3 - 1) * 3 + (3 - 2) * 1) ratTraits.zero,
          E := store (store (store (store memPair.E (0 + (3 - 1) * 1) (some 1))
                (3 + (3 - 1) * 1) (some 1))
                (0 + (3 - 2) * 1) (some 1))
              (3 + (3 - 2) * 1) (some (-1)) } :=
  (post_francis_outcomes ratTraits (wilkinsonShift ratSqrt) (francisId (Option ℚ)) (some 1)
    3 1 0 1 3 1 0 3 memPair ⟨some 1, some 1⟩ ⟨some 1, some (-1)⟩ true memPair.H
    memPair_wilkinson rfl (by decide)).2.1
    (by
      show ratTraits.lt (ratTraits.abs (some 1)) (ratTraits.mul (some 1) (ratTraits.abs (some 1)))
        = false
      simp [ratTraits, exactTraits])
    (by
      show ratTraits.lt (ratTraits.abs (some (3 / 2)))
        (ratTraits.mul (some 1) (ratTraits.add (ratTraits.abs (some 1)) (ratTraits.abs (some 1))))
        = true
      simp only [ratTraits, exactTraits]
      norm_num [abs_lt])

/-! ## The window handed to the Francis step -/

/-- What the scans guarantee about an active window `[mbeg, mend)`: its first
inner subdiagonal entry passed the test of the first scan,
`abs(H[mbeg+1,mbeg]) > tol*abs(H[mbeg+1,mbeg+1])`, and no inner entry passed
the test of the second scan, `abs(H[i,i-1]) < tol*abs(H[i,i])`. -/
theorem window_inner_entries (A : ArithTraits S) (tol : S) (m hs hs1 : Int) (H : Int → S)
    (hm : 1 ≤ m) (hact : active A tol m hs hs1 H = true) :
    A.lt (A.mul tol (A.abs (H ((mbegOf A tol m hs hs1 H + 1) * hs))))
      (A.abs (H ((mbegOf A tol m hs hs1 H + 1) * hs - hs1))) = true ∧
    ∀ i : Int, mbegOf A tol m hs hs1 H < i → i < mendOf A tol m hs hs1 H →
      A.lt (A.abs (H (i * hs - hs1))) (A.mul tol (A.abs (H (i * hs)))) = false := by
  have he := mendOf_bounds A tol m hs hs1 H hm
  have hlt : mbegOf A tol m hs hs1 H < mendOf A tol m hs hs1 H - 1 := by
    simpa [active] using hact
  have hmb : mbegOf A tol m hs hs1 H + 1 = cntBeg A tol m hs hs1 H := by
    unfold mbegOf
    ring
  constructor
  · rw [hmb]
    exact cntBeg_stop A tol m hs hs1 H hm (by unfold mbegOf at hlt; omega)
  · intro i h1 h2
    exact mendOf_before A tol m hs hs1 H i (by omega) h2

theorem ratTraits_default_tol :
    tolOf ratTraits (some (-1)) = some (100000 * (1 / 2 ^ 52)) := by
  unfold ratTraits
  rw [tolOf_exact, if_pos (by norm_num)]

theorem memReduced_cntBeg :
    cntBeg ratTraits (tolOf ratTraits (some (-1))) 3 (3 + 1) 1 memReduced.H = 1 := by
  have s1 : ratTraits.lt
      (ratTraits.mul (tolOf ratTraits (some (-1))) (ratTraits.abs (memReduced.H (1 * (3 + 1)))))
      (ratTraits.abs (memReduced.H (1 * (3 + 1) - 1))) = true := by
    rw [ratTraits_default_tol]
    show ratTraits.lt (ratTraits.mul (some (100000 * (1 / 2 ^ 52))) (ratTraits.abs (some 1)))
      (ratTraits.abs (some 1)) = true
    simp only [ratTraits, exactTraits]
    norm_num
  unfold cntBeg
  show scan _ (1 + 1) 1 = 1
  simp only [scan, s1, if_true]

theorem memReduced_mendOf :
    mendOf ratTraits (tolOf ratTraits (some (-1))) 3 (3 + 1) 1 memReduced.H = 3 := by
  have s1 : ratTraits.lt (ratTraits.abs (memReduced.H (1 * (3 + 1) - 1)))
      (ratTraits.mul (tolOf ratTraits (some (-1))) (ratTraits.abs (memReduced.H (1 * (3 + 1)))))
      = false := by
    rw [ratTraits_default_tol]
    show ratTraits.lt (ratTraits.abs (some 1))
      (ratTraits.mul (some (100000 * (1 / 2 ^ 52))) (ratTraits.abs (some 1))) = false
    simp only [ratTraits, exactTraits]
    norm_num
  have s2 : ratTraits.lt (ratTraits.abs (memReduced.H ((1 + 1) * (3 + 1) - 1)))
      (ratTraits.mul (tolOf ratTraits (some (-1)))
        (ratTraits.abs (memReduced.H ((1 + 1) * (3 + 1))))) = false := by
    rw [ratTraits_default_tol]
    show ratTraits.lt (ratTraits.abs (some 0))
      (ratTraits.mul (some (100000 * (1 / 2 ^ 52))) (ratTraits.abs (some 0))) = false
    simp only [ratTraits, exactTraits]
    norm_num
  unfold mendOf
  rw [memReduced_cntBeg]
  show scan _ (1 + 1) 1 = 3
  simp only [scan, s1, s2, Bool.false_eq_true, if_false]
  rfl


/-- C12, the code at the failing input `m = 3`, H = [[1,1,1],[1,1,1],[0,0,0]]
with the default tolerance: the scans give the window `[0, 3)` although
`H[2,1]` is exactly zero (the test `0 < tol*0` of the second scan is false),
and the Francis step is called on this window of size 3: the matrix after the
iteration is the matrix `H1` left by the Francis step on the window, up to one
entry set to zero. -/
theorem francis_window_with_zero_subdiagonal (F : Francis (Option ℚ)) :
    mbegOf ratTraits (tolOf ratTraits (some (-1))) 3 (3 + 1) 1 memReduced.H = 0 ∧
    mendOf ratTraits (tolOf ratTraits (some (-1))) 3 (3 + 1) 1 memReduced.H = 3 ∧
    active ratTraits (tolOf ratTraits (some (-1))) 3 (3 + 1) 1 memReduced.H = true ∧
    memReduced.H (2 * 3 + 1 * 1) = some 0 ∧
    ∃ (lambda1 lambda2 : Cplx (Option ℚ)) (is_complex : Bool),
      (sweep ratTraits (wilkinsonShift ratSqrt) F (tolOf ratTraits (some (-1))) 3 3 1 0 1 3 1
          memReduced).H
        = F 3 0 3 1 lambda1 lambda2 is_complex memReduced.H ∨
      (sweep ratTraits (wilkinsonShift ratSqrt) F (tolOf ratTraits (some (-1))) 3 3 1 0 1 3 1
          memReduced).H
        = store (F 3 0 3 1 lambda1 lambda2 is_complex memReduced.H) ((3 - 1) * 3 + (3 - 2) * 1)
            ratTraits.zero := by
  have hc := memReduced_cntBeg
  have hb : mbegOf ratTraits (tolOf ratTraits (some (-1))) 3 (3 + 1) 1 memReduced.H = 0 := by
    unfold mbegOf
    rw [hc]
    rfl
  have he := memReduced_mendOf
  refine ⟨hb, he, ?_, rfl, ?_⟩
  · unfold active
    rw [hb, he]
    rfl
  · refine ⟨(wilkinsonShift ratSqrt (memReduced.H ((3 - 2) * 3 + (3 - 2) * 1))
        (memReduced.H ((3 - 2) * 3 + (3 - 1) * 1)) (memReduced.H ((3 - 1) * 3 + (3 - 2) * 1))
        (memReduced.H ((3 - 1) * 3 + (3 - 1) * 1))).1,
      (wilkinsonShift ratSqrt (memReduced.H ((3 - 2) * 3 + (3 - 2) * 1))
        (memReduced.H ((3 - 2) * 3 + (3 - 1) * 1)) (memReduced.H ((3 - 1) * 3 + (3 - 2) * 1))
        (memReduced.H ((3 - 1) * 3 + (3 - 1) * 1))).2.1,
      (wilkinsonShift ratSqrt (memReduced.H ((3 - 2) * 3 + (3 - 2) * 1))
        (memReduced.H ((3 - 2) * 3 + (3 - 1) * 1)) (memReduced.H ((3 - 1) * 3 + (3 - 2) * 1))
        (memReduced.H ((3 - 1) * 3 + (3 - 1) * 1))).2.2, ?_⟩
    unfold sweep
    rw [hb, he, francisBlock_after_sweep ratTraits (wilkinsonShift ratSqrt) F
      (tolOf ratTraits (some (-1))) 3 1 0 1 3 1 0 3 memReduced _ _ _ _ rfl rfl (by decide)]
    split_ifs
    · exact Or.inl rfl
    · exact Or.inr rfl
    · exact Or.inl rfl

/-! ## A window of size 2 -/

theorem francisBlock_size_two (A : ArithTraits S) (W : Wilkinson S) (F : Francis S) (tol : S)
    (hs0 hs1 er ers ei eis mbeg mend : Int) (mem : Mem S)
    (lambda1 lambda2 : Cplx S) (is_complex : Bool)
    (hsize : mend - mbeg = 2)
    (hW : W (mem.H (mbeg * hs0 + mbeg * hs1)) (mem.H (mbeg * hs0 + (mbeg + 1) * hs1))
        (mem.H ((mbeg + 1) * hs0 + mbeg * hs1)) (mem.H ((mbeg + 1) * hs0 + (mbeg + 1) * hs1))
      = (lambda1, lambda2, is_complex)) :
    francisBlock A W F tol hs0 hs1 er ers ei eis mbeg mend mem
      = { H := store mem.H ((mbeg + 1) * hs0 + mbeg * hs1) A.zero,
          E := store (store (store (store mem.E (er + mbeg * ers) lambda1.re)
                (ei + mbeg * eis) lambda1.im)
                (er + (mbeg + 1) * ers) lambda2.re)
              (ei + (mbeg + 1) * eis) lambda2.im } := by
  have hmend : mend = mbeg + 2 := by omega
  subst hmend
  have e00 : (mbeg + 2 - 2) * (hs0 + hs1) + (0 * hs0 + 0 * hs1)
      = mbeg * hs0 + mbeg * hs1 := by ring
  have e01 : (mbeg + 2 - 2) * (hs0 + hs1) + (0 * hs0 + 1 * hs1)
      = mbeg * hs0 + (mbeg + 1) * hs1 := by ring
  have e10 : (mbeg + 2 - 2) * (hs0 + hs1) + (1 * hs0 + 0 * hs1)
      = (mbeg + 1) * hs0 + mbeg * hs1 := by ring
  have e11 : (mbeg + 2 - 2) * (hs0 + hs1) + (1 * hs0 + 1 * hs1)
      = (mbeg + 1) * hs0 + (mbeg + 1) * hs1 := by ring
  unfold francisBlock
  simp only [e00, e01, e10, e11, hW, hsize, if_true, add_zero]

theorem store_zero_scan_false (A : ArithTraits S) (hA : A.Lawful)
    (hasym : ∀ a b : S, A.lt a b = true → A.lt b a = false)
    (m hs0 hs1 : Int) (u : S) (H : Int → S) (hm : 1 ≤ m)
    (hinj : ∀ i j i1 j1 : Int, 0 ≤ i → i < m → 0 ≤ j → j < m → 0 ≤ i1 → i1 < m → 0 ≤ j1 →
      j1 < m → i * hs0 + j * hs1 = i1 * hs0 + j1 * hs1 → i = i1 ∧ j = j1)
    (hsize : mendOf A (tolOf A u) m (hs0 + hs1) hs1 H
      - mbegOf A (tolOf A u) m (hs0 + hs1) hs1 H = 2)
    (k : Int) (h1 : 1 ≤ k) (hkm : k < m)
    (hk : k ≤ mendOf A (tolOf A u) m (hs0 + hs1) hs1 H) :
    A.lt (A.mul (tolOf A u)
        (A.abs (store H ((mbegOf A (tolOf A u) m (hs0 + hs1) hs1 H + 1) * hs0
          + mbegOf A (tolOf A u) m (hs0 + hs1) hs1 H * hs1) A.zero (k * (hs0 + hs1)))))
      (A.abs (store H ((mbegOf A (tolOf A u) m (hs0 + hs1) hs1 H + 1) * hs0
          + mbegOf A (tolOf A u) m (hs0 + hs1) hs1 H * hs1) A.zero (k * (hs0 + hs1) - hs1)))
      = false := by
  have hw := window_bounds A (tolOf A u) m (hs0 + hs1) hs1 H hm
  have hmb : mbegOf A (tolOf A u) m (hs0 + hs1) hs1 H
      = cntBeg A (tolOf A u) m (hs0 + hs1) hs1 H - 1 := rfl
  generalize hbdef : mbegOf A (tolOf A u) m (hs0 + hs1) hs1 H = mbeg at *
  generalize hedef : mendOf A (tolOf A u) m (hs0 + hs1) hs1 H = mend at *
  have hdiag : k * (hs0 + hs1) ≠ (mbeg + 1) * hs0 + mbeg * hs1 := by
    intro h
    have := hinj k k (mbeg + 1) mbeg (by omega) hkm (by omega) hkm (by omega) (by omega)
      (by omega) (by omega) (by linear_combination h)
    omega
  rw [store_other _ _ _ _ hdiag]
  by_cases hk1 : k = mbeg + 1
  · have hsub : k * (hs0 + hs1) - hs1 = (mbeg + 1) * hs0 + mbeg * hs1 := by
      rw [hk1]
      ring
    rw [hsub, store_same]
    exact hA.abs_zero_not_gt _ _ (tolOf_not_neg A hA u)
  · have hsub : k * (hs0 + hs1) - hs1 ≠ (mbeg + 1) * hs0 + mbeg * hs1 := by
      intro h
      have := hinj k (k - 1) (mbeg + 1) mbeg (by omega) hkm (by omega) (by omega) (by omega)
        (by omega) (by omega) (by omega) (by linear_combination h)
      omega
    rw [store_other _ _ _ _ hsub]
    by_cases hlt : k < mbeg + 1
    · exact cntBeg_before A (tolOf A u) m (hs0 + hs1) hs1 H k h1 (by omega)
    · have hke : k = mend := by omega
      have hstop := mendOf_stop A (tolOf A u) m (hs0 + hs1) hs1 H hm (by rw [hedef]; omega)
      rw [hedef, ← hke] at hstop
      exact hasym _ _ hstop

/-- C13: for `m ≥ 3`, in an iteration whose window has size 2
(`mend - mbeg = 2`): the iteration goes through the Francis double shift block,
which does not call the Francis step; the memory it leaves has
`H[mbeg+1,mbeg]` set to zero and no other entry of `H` changed, and `er`, `ei`
changed only in the slots `mbeg` (the Wilkinson value `lambda1` of the block)
and `mbeg+1` (`lambda2`); and the next scan, if it finds an active window,
finds it at or after `mend`. The entries of `H` and the slots of `er`, `ei`
are taken to be pairwise distinct addresses. -/
theorem size_two_window (A : ArithTraits S) (hA : A.Lawful)
    (hasym : ∀ a b : S, A.lt a b = true → A.lt b a = false)
    (W : Wilkinson S) (F : Francis S) (m hs0 hs1 er ers ei eis : Int) (u : S) (n : Nat)
    (mem : Mem S) (mbeg mend : Int) (lambda1 lambda2 : Cplx S) (is_complex : Bool)
    (hm : 3 ≤ m)
    (hb : mbegOf A (tolOf A u) m (hs0 + hs1) hs1 mem.H = mbeg)
    (he : mendOf A (tolOf A u) m (hs0 + hs1) hs1 mem.H = mend)
    (hsize : mend - mbeg = 2)
    (hW : W (mem.H (mbeg * hs0 + mbeg * hs1)) (mem.H (mbeg * hs0 + (mbeg + 1) * hs1))
        (mem.H ((mbeg + 1) * hs0 + mbeg * hs1)) (mem.H ((mbeg + 1) * hs0 + (mbeg + 1) * hs1))
      = (lambda1, lambda2, is_complex))
    (hinj : ∀ i j i1 j1 : Int, 0 ≤ i → i < m → 0 ≤ j → j < m → 0 ≤ i1 → i1 < m → 0 ≤ j1 →
      j1 < m → i * hs0 + j * hs1 = i1 * hs0 + j1 * hs1 → i = i1 ∧ j = j1)
    (hers : ers ≠ 0) (heis : eis ≠ 0)
    (hdisj : ∀ i j : Int, 0 ≤ i → i < m → 0 ≤ j → j < m → er + i * ers ≠ ei + j * eis) :
    iterate A W F (tolOf A u) m hs0 hs1 er ers ei eis (n + 1) mem
      = iterate A W F (tolOf A u) m hs0 hs1 er ers ei eis n
          (sweep A W F (tolOf A u) m hs0 hs1 er ers ei eis mem) ∧
    sweep A W F (tolOf A u) m hs0 hs1 er ers ei eis mem
      = { H := store mem.H ((mbeg + 1) * hs0 + mbeg * hs1) A.zero,
          E := store (store (store (store mem.E (er + mbeg * ers) lambda1.re)
                (ei + mbeg * eis) lambda1.im)
                (er + (mbeg + 1) * ers) lambda2.re)
              (ei + (mbeg + 1) * eis) lambda2.im } ∧
    ((sweep A W F (tolOf A u) m hs0 hs1 er ers ei eis mem).E (er + mbeg * ers) = lambda1.re ∧
      (sweep A W F (tolOf A u) m hs0 hs1 er ers ei eis mem).E (ei + mbeg * eis) = lambda1.im ∧
      (sweep A W F (tolOf A u) m hs0 hs1 er ers ei eis mem).E (er + (mbeg + 1) * ers)
        = lambda2.re ∧
      (sweep A W F (tolOf A u) m hs0 hs1 er ers ei eis mem).E (ei + (mbeg + 1) * eis)
        = lambda2.im) ∧
    (sweep A W F (tolOf A u) m hs0 hs1 er ers ei eis mem).H ((mbeg + 1) * hs0 + mbeg * hs1)
      = A.zero ∧
    (active A (tolOf A u) m (hs0 + hs1) hs1
        (sweep A W F (tolOf A u) m hs0 hs1 er ers ei eis mem).H = true →
      mend ≤ mbegOf A (tolOf A u) m (hs0 + hs1) hs1
        (sweep A W F (tolOf A u) m hs0 hs1 er ers ei eis mem).H) := by
  have hw := window_bounds A (tolOf A u) m (hs0 + hs1) hs1 mem.H (by omega)
  rw [hb, he] at hw
  have hsw : sweep A W F (tolOf A u) m hs0 hs1 er ers ei eis mem
      = { H := store mem.H ((mbeg + 1) * hs0 + mbeg * hs1) A.zero,
          E := store (store (store (store mem.E (er + mbeg * ers) lambda1.re)
                (ei + mbeg * eis) lambda1.im)
                (er + (mbeg + 1) * ers) lambda2.re)
              (ei + (mbeg + 1) * eis) lambda2.im } := by
    unfold sweep
    rw [hb, he]
    exact francisBlock_size_two A W F (tolOf A u) hs0 hs1 er ers ei eis mbeg mend mem
      lambda1 lambda2 is_complex hsize hW
  have hact : active A (tolOf A u) m (hs0 + hs1) hs1 mem.H = true := by
    unfold active
    rw [hb, he]
    simp only [decide_eq_true_eq]
    omega
  have d1 : er + mbeg * ers ≠ er + (mbeg + 1) * ers := by
    intro h
    have := mul_right_cancel₀ hers (add_left_cancel h)
    omega
  have d2 : ei + mbeg * eis ≠ ei + (mbeg + 1) * eis := by
    intro h
    have := mul_right_cancel₀ heis (add_left_cancel h)
    omega
  have c00 := hdisj mbeg mbeg (by omega) (by omega) (by omega) (by omega)
  have c01 := hdisj mbeg (mbeg + 1) (by omega) (by omega) (by omega) (by omega)
  have c10 := hdisj (mbeg + 1) mbeg (by omega) (by omega) (by omega) (by omega)
  have c11 := hdisj (mbeg + 1) (mbeg + 1) (by omega) (by omega) (by omega) (by omega)
  refine ⟨by simp [iterate, hact], hsw, ?_, ?_, ?_⟩
  · rw [hsw]
    refine ⟨?_, ?_, ?_, ?_⟩
    · show store _ _ _ _ = _
      rw [store_other _ _ _ _ c01, store_other _ _ _ _ d1, store_other _ _ _ _ c00, store_same]
    · show store _ _ _ _ = _
      rw [store_other _ _ _ _ d2, store_other _ _ _ _ (fun h => c10 h.symm), store_same]
    · show store _ _ _ _ = _
      rw [store_other _ _ _ _ c11, store_same]
    · show store _ _ _ _ = _
      rw [store_same]
  · rw [hsw]
    exact store_same _ _ _
  · rw [hsw]
    dsimp only
    intro hnext
    have hfalse : ∀ k : Int, 1 ≤ k → k < min (mend + 1) m →
        A.lt (A.mul (tolOf A u)
            (A.abs (store mem.H ((mbeg + 1) * hs0 + mbeg * hs1) A.zero (k * (hs0 + hs1)))))
          (A.abs (store mem.H ((mbeg + 1) * hs0 + mbeg * hs1) A.zero (k * (hs0 + hs1) - hs1)))
          = false := by
      intro k h1 hk
      have := store_zero_scan_false A hA hasym m hs0 hs1 u mem.H (by omega) hinj
        (by rw [hb, he]; exact hsize) k h1 (lt_of_lt_of_le hk (min_le_right _ _))
        (by rw [he]; have := lt_of_lt_of_le hk (min_le_left _ _); omega)
      rw [hb] at this
      exact this
    have hge : min (mend + 1) m ≤ cntBeg A (tolOf A u) m (hs0 + hs1) hs1
        (store mem.H ((mbeg + 1) * hs0 + mbeg * hs1) A.zero) := by
      unfold cntBeg
      apply scan_ge_of_false
      · have := min_le_right (mend + 1) m
        omega
      · exact hfalse
    have hne : cntBeg A (tolOf A u) m (hs0 + hs1) hs1
        (store mem.H ((mbeg + 1) * hs0 + mbeg * hs1) A.zero) ≠ m := by
      intro heq
      have := (active_iff_cntBeg A (tolOf A u) m (hs0 + hs1) hs1
        (store mem.H ((mbeg + 1) * hs0 + mbeg * hs1) A.zero) (by omega) hasym).mpr heq
      rw [this] at hnext
      exact Bool.noConfusion hnext
    have hcb := cntBeg_bounds A (tolOf A u) m (hs0 + hs1) hs1
      (store mem.H ((mbeg + 1) * hs0 + mbeg * hs1) A.zero) (by omega)
    unfold mbegOf
    rcases le_total (mend + 1) m with h | h
    · rw [min_eq_left h] at hge
      omega
    · rw [min_eq_right h] at hge
      omega

theorem memBlock_cntBeg :
    cntBeg ratTraits (tolOf ratTraits (some (-1))) 3 (3 + 1) 1 memBlock.H = 1 := by
  have s1 : ratTraits.lt
      (ratTraits.mul (tolOf ratTraits (some (-1))) (ratTraits.abs (memBlock.H (1 * (3 + 1)))))
      (ratTraits.abs (memBlock.H (1 * (3 + 1) - 1))) = true := by
    rw [ratTraits_default_tol]
    show ratTraits.lt (ratTraits.mul (some (100000 * (1 / 2 ^ 52))) (ratTraits.abs (some 1)))
      (ratTraits.abs (some 1)) = true
    simp only [ratTraits, exactTraits]
    norm_num
  unfold cntBeg
  show scan _ (1 + 1) 1 = 1
  simp only [scan, s1, if_true]

theorem memBlock_mendOf :
    mendOf ratTraits (tolOf ratTraits (some (-1))) 3 (3 + 1) 1 memBlock.H = 2 := by
  have s1 : ratTraits.lt (ratTraits.abs (memBlock.H (1 * (3 + 1) - 1)))
      (ratTraits.mul (tolOf ratTraits (some (-1))) (ratTraits.abs (memBlock.H (1 * (3 + 1)))))
      = false := by
    rw [ratTraits_default_tol]
    show ratTraits.lt (ratTraits.abs (some 1))
      (ratTraits.mul (some (100000 * (1 / 2 ^ 52))) (ratTraits.abs (some 1))) = false
    simp only [ratTraits, exactTraits]
    norm_num
  have s2 : ratTraits.lt (ratTraits.abs (memBlock.H ((1 + 1) * (3 + 1) - 1)))
      (ratTraits.mul (tolOf ratTraits (some (-1)))
        (ratTraits.abs (memBlock.H ((1 + 1) * (3 + 1))))) = true := by
    rw [ratTraits_default_tol]
    show ratTraits.lt (ratTraits.abs (some 0))
      (ratTraits.mul (some (100000 * (1 / 2 ^ 52))) (ratTraits.abs (some 5))) = true
    simp only [ratTraits, exactTraits]
    norm_num
  unfold mendOf
  rw [memBlock_cntBeg]
  show scan _ (1 + 1) 1 = 2
  simp only [scan, s1, s2, Bool.false_eq_true, if_false, if_true]
  rfl

theorem rowMajor3_injective :
    ∀ i j i1 j1 : Int, 0 ≤ i → i < 3 → 0 ≤ j → j < 3 → 0 ≤ i1 → i1 < 3 → 0 ≤ j1 → j1 < 3 →
      i * 3 + j * 1 = i1 * 3 + j1 * 1 → i = i1 ∧ j = j1 := by
  intro i j i1 j1 _ _ _ _ _ _ _ _ h
  constructor <;> omega

/-- Witness for C13: the window `[0, 2)` of [[1,-1,0],[1,1,0],[0,0,5]] with the
default tolerance: slot 0 receives `1 + i` and slot 1 receives `1 - i`. -/
theorem size_two_window_witness :
    (sweep ratTraits (wilkinsonShift ratSqrt) (francisId (Option ℚ))
        (tolOf ratTraits (some (-1))) 3 3 1 0 1 3 1 memBlock).E (0 + 0 * 1) = some 1 ∧
    (sweep ratTraits (wilkinsonShift ratSqrt) (francisId (Option ℚ))
        (tolOf ratTraits (some (-1))) 3 3 1 0 1 3 1 memBlock).E (3 + 0 * 1) = some 1 ∧
    (sweep ratTraits (wilkinsonShift ratSqrt) (francisId (Option ℚ))
        (tolOf ratTraits (some (-1))) 3 3 1 0 1 3 1 memBlock).E (0 + (0 + 1) * 1) = some 1 ∧
    (sweep ratTraits (wilkinsonShift ratSqrt) (francisId (Option ℚ))
        (tolOf ratTraits (some (-1))) 3 3 1 0 1 3 1 memBlock).E (3 + (0 + 1) * 1)
      = some (-1) :=
  (size_two_window ratTraits ratTraits_lawful (exactTraits_asym ℚ (1 / 2 ^ 52))
    (wilkinsonShift ratSqrt) (francisId (Option ℚ)) 3 3 1 0 1 3 1 (some (-1)) 0 memBlock 0 2
    ⟨some 1, some 1⟩ ⟨some 1, some (-1)⟩ true (by decide)
    (by unfold mbegOf; rw [memBlock_cntBeg]; rfl) memBlock_mendOf (by decide)
    memPair_wilkinson rowMajor3_injective (by decide) (by decide) diag_disjoint).2.2.1

/-! ## Accesses stay inside the buffers -/

theorem readH_ok (m hs0 hs1 : Int) (H : Int → S) (i j : Int)
    (hi0 : 0 ≤ i) (hi : i < m) (hj0 : 0 ≤ j) (hj : j < m) :
    readH m hs0 hs1 H i j = some (H (i * hs0 + j * hs1)) := by
  simp [readH, posOk, hi0, hi, hj0, hj]

theorem writeH_ok (m hs0 hs1 : Int) (H : Int → S) (i j : Int) (v : S)
    (hi0 : 0 ≤ i) (hi : i < m) (hj0 : 0 ≤ j) (hj : j < m) :
    writeH m hs0 hs1 H i j v = some (store H (i * hs0 + j * hs1) v) := by
  simp [writeH, posOk, hi0, hi, hj0, hj]

theorem readE_ok (m p st : Int) (E : Int → S) (i : Int) (hi0 : 0 ≤ i) (hi : i < m) :
    readE m p st E i = some (E (p + i * st)) := by
  simp [readE, slotOk, hi0, hi]

theorem writeE_ok (m p st : Int) (E : Int → S) (i : Int) (v : S) (hi0 : 0 ≤ i) (hi : i < m) :
    writeE m p st E i v = some (store E (p + i * st) v) := by
  simp [writeE, slotOk, hi0, hi]

theorem forLoopChecked_eq {σ : Type} (n : Nat) (bodyC : Int → σ → Option σ)
    (body : Int → σ → σ) (s : σ)
    (h : ∀ k : Nat, k < n → ∀ t : σ, bodyC (k : Int) t = some (body (k : Int) t)) :
    forLoopChecked n bodyC s = some (forLoop n body s) := by
  induction n with
  | zero => rfl
  | succ n ih =>
    simp only [forLoopChecked, forLoop]
    rw [ih (fun k hk => h k (Nat.lt_succ_of_lt hk)), Option.some_bind]
    exact h n (Nat.lt_succ_self n) _

theorem scanChecked_eq (A : ArithTraits S) (test : S → S → Bool) (m hs0 hs1 : Int)
    (H : Int → S) (n : Nat) (c : Int) (h1 : 1 ≤ c) (hn : c + n ≤ m) :
    scanChecked A test m hs0 hs1 H n c
      = some (scan (fun cnt => test (A.abs (H (cnt * (hs0 + hs1) - hs1)))
          (A.abs (H (cnt * (hs0 + hs1))))) n c) := by
  induction n generalizing c with
  | zero => rfl
  | succ n ih =>
    have e1 : c * hs0 + (c - 1) * hs1 = c * (hs0 + hs1) - hs1 := by ring
    have e2 : c * hs0 + c * hs1 = c * (hs0 + hs1) := by ring
    push_cast at hn
    simp only [scanChecked, scan]
    rw [readH_ok m hs0 hs1 H c (c - 1) (by omega) (by omega) (by omega) (by omega),
      readH_ok m hs0 hs1 H c c (by omega) (by omega) (by omega) (by omega), e1, e2]
    simp only []
    split_ifs
    · rfl
    · exact ih (c + 1) (by omega) (by omega)

theorem francisBlock_size_two_at (A : ArithTraits S) (W : Wilkinson S) (F : Francis S)
    (tol : S) (hs0 hs1 er ers ei eis mbeg mend : Int) (mem : Mem S)
    (hsize : mend - mbeg = 2) :
    francisBlock A W F tol hs0 hs1 er ers ei eis mbeg mend mem
      = { H := store mem.H ((mend - 1) * hs0 + (mend - 2) * hs1) A.zero,
          E := store (store (store (store mem.E (er + (mbeg + 0) * ers)
                (W (mem.H ((mend - 2) * hs0 + (mend - 2) * hs1))
                  (mem.H ((mend - 2) * hs0 + (mend - 1) * hs1))
                  (mem.H ((mend - 1) * hs0 + (mend - 2) * hs1))
                  (mem.H ((mend - 1) * hs0 + (mend - 1) * hs1))).1.re)
                (ei + (mbeg + 0) * eis)
                (W (mem.H ((mend - 2) * hs0 + (mend - 2) * hs1))
                  (mem.H ((mend - 2) * hs0 + (mend - 1) * hs1))
                  (mem.H ((mend - 1) * hs0 + (mend - 2) * hs1))
                  (mem.H ((mend - 1) * hs0 + (mend - 1) * hs1))).1.im)
                (er + (mbeg + 1) * ers)
                (W (mem.H ((mend - 2) * hs0 + (mend - 2) * hs1))
                  (mem.H ((mend - 2) * hs0 + (mend - 1) * hs1))
                  (mem.H ((mend - 1) * hs0 + (mend - 2) * hs1))
                  (mem.H ((mend - 1) * hs0 + (mend - 1) * hs1))).2.1.re)
              (ei + (mbeg + 1) * eis)
              (W (mem.H ((mend - 2) * hs0 + (mend - 2) * hs1))
                (mem.H ((mend - 2) * hs0 + (mend - 1) * hs1))
                (mem.H ((mend - 1) * hs0 + (mend - 2) * hs1))
                (mem.H ((mend - 1) * hs0 + (mend - 1) * hs1))).2.1.im } := by
  have e00 : (mend - 2) * (hs0 + hs1) + (0 * hs0 + 0 * hs1)
      = (mend - 2) * hs0 + (mend - 2) * hs1 := by ring
  have e01 : (mend - 2) * (hs0 + hs1) + (0 * hs0 + 1 * hs1)
      = (mend - 2) * hs0 + (mend - 1) * hs1 := by ring
  have e10 : (mend - 2) * (hs0 + hs1) + (1 * hs0 + 0 * hs1)
      = (mend - 1) * hs0 + (mend - 2) * hs1 := by ring
  have e11 : (mend - 2) * (hs0 + hs1) + (1 * hs0 + 1 * hs1)
      = (mend - 1) * hs0 + (mend - 1) * hs1 := by ring
  unfold francisBlock
  simp only [e00, e01, e10, e11, hsize, if_true]

theorem francisBlockChecked_eq (A : ArithTraits S) (W : Wilkinson S) (F : Francis S) (tol : S)
    (m hs0 hs1 er ers ei eis mbeg mend : Int) (mem : Mem S)
    (h0 : 0 ≤ mbeg) (h1 : mbeg < mend - 1) (h2 : mend ≤ m) :
    francisBlockChecked A W F tol m hs0 hs1 er ers ei eis mbeg mend mem
      = some (francisBlock A W F tol hs0 hs1 er ers ei eis mbeg mend mem) := by
  have i0 : mend - 2 + 0 = mend - 2 := by ring
  have i1 : mend - 2 + 1 = mend - 1 := by ring
  unfold francisBlockChecked
  rw [i0, i1,
    readH_ok m hs0 hs1 mem.H (mend - 2) (mend - 2) (by omega) (by omega) (by omega) (by omega),
    readH_ok m hs0 hs1 mem.H (mend - 2) (mend - 1) (by omega) (by omega) (by omega) (by omega),
    readH_ok m hs0 hs1 mem.H (mend - 1) (mend - 2) (by omega) (by omega) (by omega) (by omega),
    readH_ok m hs0 hs1 mem.H (mend - 1) (mend - 1) (by omega) (by omega) (by omega) (by omega)]
  simp only []
  by_cases hs2 : mend - mbeg = 2
  · rw [if_pos hs2, francisBlock_size_two_at A W F tol hs0 hs1 er ers ei eis mbeg mend mem hs2,
      writeE_ok m er ers _ (mbeg + 0) _ (by omega) (by omega), Option.some_bind,
      writeE_ok m ei eis _ (mbeg + 0) _ (by omega) (by omega), Option.some_bind,
      writeE_ok m er ers _ (mbeg + 1) _ (by omega) (by omega), Option.some_bind,
      writeE_ok m ei eis _ (mbeg + 1) _ (by omega) (by omega), Option.some_bind,
      writeH_ok m hs0 hs1 _ (mend - 1) (mend - 2) _ (by omega) (by omega) (by omega) (by omega),
      Option.some_bind]
  · rw [if_neg hs2, if_pos ⟨h0, by omega⟩,
      francisBlock_after_sweep A W F tol hs0 hs1 er ers ei eis mbeg mend mem _ _ _ _ rfl rfl hs2]
    rw [readH_ok m hs0 hs1 _ (mend - 1) (mend - 2) (by omega) (by omega) (by omega) (by omega),
      readH_ok m hs0 hs1 _ (mend - 2) (mend - 3) (by omega) (by omega) (by omega) (by omega),
      readH_ok m hs0 hs1 _ (mend - 1) (mend - 1) (by omega) (by omega) (by omega) (by omega),
      readH_ok m hs0 hs1 _ (mend - 2) (mend - 2) (by omega) (by omega) (by omega) (by omega)]
    simp only []
    split_ifs
    · rw [writeE_ok m er ers _ (mend - 1) _ (by omega) (by omega), Option.some_bind,
        writeE_ok m ei eis _ (mend - 1) _ (by omega) (by omega), Option.some_bind]
    · rw [writeE_ok m er ers _ (mend - 1) _ (by omega) (by omega), Option.some_bind,
        writeE_ok m ei eis _ (mend - 1) _ (by omega) (by omega), Option.some_bind,
        writeE_ok m er ers _ (mend - 2) _ (by omega) (by omega), Option.some_bind,
        writeE_ok m ei eis _ (mend - 2) _ (by omega) (by omega), Option.some_bind,
        writeH_ok m hs0 hs1 _ (mend - 1) (mend - 2) _ (by omega) (by omega) (by omega)
          (by omega), Option.some_bind]
    · rfl

theorem scanBeg_checked (A : ArithTraits S) (tol : S) (m hs0 hs1 : Int) (H : Int → S)
    (hm : 1 ≤ m) :
    scanChecked A (fun val ref_val => A.lt (A.mul tol ref_val) val) m hs0 hs1 H (m - 1).toNat 1
      = some (cntBeg A tol m (hs0 + hs1) hs1 H) :=
  scanChecked_eq A (fun val ref_val => A.lt (A.mul tol ref_val) val) m hs0 hs1 H (m - 1).toNat 1
    (le_refl 1) (by omega)

theorem scanEnd_checked (A : ArithTraits S) (tol : S) (m hs0 hs1 : Int) (H : Int → S)
    (hm : 1 ≤ m) :
    scanChecked A (fun val ref_val => A.lt val (A.mul tol ref_val)) m hs0 hs1 H
        (m - cntBeg A tol m (hs0 + hs1) hs1 H).toNat (cntBeg A tol m (hs0 + hs1) hs1 H)
      = some (mendOf A tol m (hs0 + hs1) hs1 H) := by
  have hc := cntBeg_bounds A tol m (hs0 + hs1) hs1 H hm
  exact scanChecked_eq A (fun val ref_val => A.lt val (A.mul tol ref_val)) m hs0 hs1 H
    (m - cntBeg A tol m (hs0 + hs1) hs1 H).toNat (cntBeg A tol m (hs0 + hs1) hs1 H)
    hc.1 (by omega)

theorem iterateChecked_eq (A : ArithTraits S) (W : Wilkinson S) (F : Francis S) (tol : S)
    (m hs0 hs1 er ers ei eis : Int) (hm : 1 ≤ m) (n : Nat) (mem : Mem S) :
    iterateChecked A W F tol m hs0 hs1 er ers ei eis n mem
      = some (iterate A W F tol m hs0 hs1 er ers ei eis n mem) := by
  induction n generalizing mem with
  | zero => rfl
  | succ n ih =>
    have hw := window_bounds A tol m (hs0 + hs1) hs1 mem.H hm
    simp only [iterateChecked]
    rw [scanBeg_checked A tol m hs0 hs1 mem.H hm]
    simp only []
    rw [scanEnd_checked A tol m hs0 hs1 mem.H hm]
    simp only []
    by_cases hact : active A tol m (hs0 + hs1) hs1 mem.H = true
    · have hlt : mbegOf A tol m (hs0 + hs1) hs1 mem.H
          < mendOf A tol m (hs0 + hs1) hs1 mem.H - 1 := by
        simpa [active] using hact
      have hlt2 : cntBeg A tol m (hs0 + hs1) hs1 mem.H - 1
          < mendOf A tol m (hs0 + hs1) hs1 mem.H - 1 := hlt
      rw [if_pos hlt2]
      have hfb := francisBlockChecked_eq A W F tol m hs0 hs1 er ers ei eis
        (mbegOf A tol m (hs0 + hs1) hs1 mem.H) (mendOf A tol m (hs0 + hs1) hs1 mem.H) mem
        hw.1 hlt hw.2.2
      unfold mbegOf at hfb
      rw [hfb]
      simp only []
      rw [ih]
      simp only [iterate, hact, if_true]
      rfl
    · have hnlt : ¬ cntBeg A tol m (hs0 + hs1) hs1 mem.H - 1
          < mendOf A tol m (hs0 + hs1) hs1 mem.H - 1 := by
        intro h
        apply hact
        unfold active mbegOf
        simpa using h
      rw [if_neg hnlt]
      simp only [iterate, hact, Bool.false_eq_true, if_false]

theorem fillChecked_eq (A : ArithTraits S) (m hs0 hs1 er ers ei eis : Int)
    (H E : Int → S) :
    forLoopChecked m.toNat (fillBodyChecked A m hs0 hs1 er ers ei eis H) E
      = some (fillMissing A m (hs0 + hs1) er ers ei eis H E) := by
  rw [fillMissing_eq]
  apply forLoopChecked_eq
  intro k hk t
  have e : (k : Int) * hs0 + (k : Int) * hs1 = (k : Int) * (hs0 + hs1) := by ring
  unfold fillBodyChecked fillBody
  rw [readE_ok m er ers t k (by omega) (by omega)]
  simp only []
  split_ifs
  · rw [readH_ok m hs0 hs1 H k k (by omega) (by omega) (by omega) (by omega)]
    simp only []
    rw [writeE_ok m er ers _ k _ (by omega) (by omega), Option.some_bind,
      writeE_ok m ei eis _ k _ (by omega) (by omega), e]
  · rfl

theorem initChecked_eq (A : ArithTraits S) (m er ers : Int) (E : Int → S) :
    forLoopChecked m.toNat (fun i E => writeE m er ers E i A.nan) E
      = some (initNan A m er ers E) := by
  unfold initNan
  apply forLoopChecked_eq
  intro k hk t
  exact writeE_ok m er ers t k A.nan (by omega) (by omega)

theorem invokeDefaultChecked_eq (A : ArithTraits S) (W : Wilkinson S) (F : Francis S)
    (m hs0 hs1 er ers ei eis max_iteration : Int) (tol : S) (mem : Mem S) (hm : 1 ≤ m) :
    invokeDefaultChecked A W F m hs0 hs1 er ers ei eis max_iteration tol mem
      = some (invokeDefault A W F m hs0 hs1 er ers ei eis max_iteration tol mem) := by
  unfold invokeDefaultChecked
  rw [iterateChecked_eq A W F tol m hs0 hs1 er ers ei eis hm, invokeDefault_eq]
  simp only []
  split_ifs
  · rw [fillChecked_eq, Option.some_bind]
  · rfl

theorem invokeChecked_eq (A : ArithTraits S) (W : Wilkinson S) (F : Francis S)
    (m hs0 hs1 er ers ei eis max_iteration : Int) (user_tolerence : S) (restart : Bool)
    (mem : Mem S) (hm : 3 ≤ m) :
    invokeChecked A W F m hs0 hs1 er ers ei eis max_iteration user_tolerence restart mem
      = some (invoke A W F m hs0 hs1 er ers ei eis max_iteration user_tolerence restart mem) := by
  have h2 : ¬ m ≤ 2 := by omega
  rw [invoke_default A W F m hs0 hs1 er ers ei eis max_iteration user_tolerence restart mem hm]
  unfold invokeChecked entryMem
  cases restart with
  | true =>
    simp only [if_true, h2, if_false]
    exact invokeDefaultChecked_eq A W F m hs0 hs1 er ers ei eis max_iteration _ mem (by omega)
  | false =>
    simp only [Bool.false_eq_true, if_false]
    rw [initChecked_eq, Option.some_bind]
    exact invokeDefaultChecked_eq A W F m hs0 hs1 er ers ei eis max_iteration _ _ (by omega)

theorem francisBlock_E_frame (A : ArithTraits S) (W : Wilkinson S) (F : Francis S) (tol : S)
    (m hs0 hs1 er ers ei eis mbeg mend : Int) (mem : Mem S) (a : Int)
    (h0 : 0 ≤ mbeg) (h1 : mbeg < mend - 1) (h2 : mend ≤ m)
    (ha : ∀ i : Int, 0 ≤ i → i < m → a ≠ er + i * ers ∧ a ≠ ei + i * eis) :
    (francisBlock A W F tol hs0 hs1 er ers ei eis mbeg mend mem).E a = mem.E a := by
  have a0 := ha (mbeg + 0) (by omega) (by omega)
  have a1 := ha (mbeg + 1) (by omega) (by omega)
  have b1 := ha (mend - 1) (by omega) (by omega)
  have b2 := ha (mend - 2) (by omega) (by omega)
  by_cases hs2 : mend - mbeg = 2
  · rw [francisBlock_size_two_at A W F tol hs0 hs1 er ers ei eis mbeg mend mem hs2]
    show store _ _ _ a = _
    rw [store_other _ _ _ _ a1.2, store_other _ _ _ _ a1.1, store_other _ _ _ _ a0.2,
      store_other _ _ _ _ a0.1]
  · rw [francisBlock_after_sweep A W F tol hs0 hs1 er ers ei eis mbeg mend mem _ _ _ _ rfl rfl
      hs2]
    split_ifs
    · show store _ _ _ a = _
      rw [store_other _ _ _ _ b1.2, store_other _ _ _ _ b1.1]
    · show store _ _ _ a = _
      rw [store_other _ _ _ _ b2.2, store_other _ _ _ _ b2.1, store_other _ _ _ _ b1.2,
        store_other _ _ _ _ b1.1]
    · rfl

theorem iterate_E_frame (A : ArithTraits S) (W : Wilkinson S) (F : Francis S) (tol : S)
    (m hs0 hs1 er ers ei eis : Int) (hm : 1 ≤ m) (a : Int)
    (ha : ∀ i : Int, 0 ≤ i → i < m → a ≠ er + i * ers ∧ a ≠ ei + i * eis)
    (n : Nat) (mem : Mem S) :
    (iterate A W F tol m hs0 hs1 er ers ei eis n mem).2.E a = mem.E a := by
  induction n generalizing mem with
  | zero => rfl
  | succ n ih =>
    by_cases hact : active A tol m (hs0 + hs1) hs1 mem.H = true
    · have hw := window_bounds A tol m (hs0 + hs1) hs1 mem.H hm
      have hlt : mbegOf A tol m (hs0 + hs1) hs1 mem.H
          < mendOf A tol m (hs0 + hs1) hs1 mem.H - 1 := by
        simpa [active] using hact
      simp only [iterate, hact, if_true]
      rw [ih]
      exact francisBlock_E_frame A W F tol m hs0 hs1 er ers ei eis _ _ mem a hw.1 hlt hw.2.2 ha
    · simp only [iterate, hact, Bool.false_eq_true, if_false]

theorem invoke_E_frame (A : ArithTraits S) (W : Wilkinson S) (F : Francis S)
    (m hs0 hs1 er ers ei eis max_iteration : Int) (user_tolerence : S) (restart : Bool)
    (mem : Mem S) (hm : 3 ≤ m) (a : Int)
    (ha : ∀ i : Int, 0 ≤ i → i < m → a ≠ er + i * ers ∧ a ≠ ei + i * eis) :
    (invoke A W F m hs0 hs1 er ers ei eis max_iteration user_tolerence restart mem).mem.E a
      = mem.E a := by
  have hnat : ∀ k : Nat, k < m.toNat → a ≠ er + (k : Int) * ers ∧ a ≠ ei + (k : Int) * eis :=
    fun k hk => ha k (by omega) (by omega)
  have hentry : (entryMem A m er ers restart mem).E a = mem.E a := by
    unfold entryMem
    cases restart with
    | true => rfl
    | false => exact initLoop_frame A.nan er ers m.toNat mem.E a (fun k hk => (hnat k hk).1)
  have hit := iterate_E_frame A W F (tolOf A user_tolerence) m hs0 hs1 er ers ei eis (by omega)
    a ha max_iteration.toNat (entryMem A m er ers restart mem)
  rw [invoke_default A W F m hs0 hs1 er ers ei eis max_iteration user_tolerence restart mem hm,
    invokeDefault_eq]
  split_ifs
  · show fillMissing _ _ _ _ _ _ _ _ _ a = _
    rw [fillMissing_eq, fill_frame A (hs0 + hs1) er ers ei eis _ m.toNat _ a hnat, hit, hentry]
  · show (iterate _ _ _ _ _ _ _ _ _ _ _ _ _).2.E a = _
    rw [hit, hentry]

/-- C15: for `m ≥ 3`, every input and every tolerance: each scan computes
`0 ≤ mbeg < mend ≤ m`; the call with every access of `H`, `er` and `ei` checked
against the ranges `0 ≤ i, j < m` (position `(i, j)` of `H`, among them
`(mend-2, mend-3)`, and the window handed to the Francis step) and `0 ≤ i < m`
(slot `i` of `er`, `ei`) never leaves these ranges and returns what `invoke`
returns; and every address that is not one of the m slots of `er` or `ei`
holds after the call what it held before. -/
theorem accesses_in_bounds (A : ArithTraits S) (W : Wilkinson S) (F : Francis S)
    (m hs0 hs1 er ers ei eis max_iteration : Int) (user_tolerence : S) (restart : Bool)
    (mem : Mem S) (hm : 3 ≤ m) :
    (∀ (tol : S) (H : Int → S),
      0 ≤ mbegOf A tol m (hs0 + hs1) hs1 H ∧
      mbegOf A tol m (hs0 + hs1) hs1 H < mendOf A tol m (hs0 + hs1) hs1 H ∧
      mendOf A tol m (hs0 + hs1) hs1 H ≤ m) ∧
    invokeChecked A W F m hs0 hs1 er ers ei eis max_iteration user_tolerence restart mem
      = some (invoke A W F m hs0 hs1 er ers ei eis max_iteration user_tolerence restart mem) ∧
    (∀ a : Int, (∀ i : Int, 0 ≤ i → i < m → a ≠ er + i * ers ∧ a ≠ ei + i * eis) →
      (invoke A W F m hs0 hs1 er ers ei eis max_iteration user_tolerence restart mem).mem.E a
        = mem.E a) :=
  ⟨fun tol H => window_bounds A tol m (hs0 + hs1) hs1 H (by omega),
    invokeChecked_eq A W F m hs0 hs1 er ers ei eis max_iteration user_tolerence restart mem hm,
    fun a ha => invoke_E_frame A W F m hs0 hs1 er ers ei eis max_iteration user_tolerence
      restart mem hm a ha⟩

/-- Witness for C15: the call on diag(2,5,9) with contiguous `er` at address 0
and `ei` at address 3. -/
theorem accesses_in_bounds_witness :
    (3 : Int) ≤ 3 ∧
    invokeChecked ratTraits (wilkinsonShift ratSqrt) (francisId (Option ℚ)) 3 3 1 0 1 3 1 300
        (some (-1)) false memDiag
      = some (invoke ratTraits (wilkinsonShift ratSqrt) (francisId (Option ℚ)) 3 3 1 0 1 3 1 300
        (some (-1)) false memDiag) :=
  ⟨by decide, (accesses_in_bounds ratTraits (wilkinsonShift ratSqrt) (francisId (Option ℚ))
    3 3 1 0 1 3 1 300 (some (-1)) false memDiag (by decide)).2.1⟩

/-! ## Slots the loop does not write -/

theorem francisBlock_E_eq (A : ArithTraits S) (W : Wilkinson S) (F : Francis S) (tol : S)
    (hs0 hs1 er ers ei eis mbeg mend : Int) (mem : Mem S) :
    (francisBlock A W F tol hs0 hs1 er ers ei eis mbeg mend mem).E
      = applyStores er ers ei eis (blockStores A W F tol hs0 hs1 mbeg mend mem) mem.E := by
  unfold francisBlock blockStores applyStores
  simp only []
  split_ifs <;> rfl

theorem blockStores_bounds (A : ArithTraits S) (W : Wilkinson S) (F : Francis S) (tol : S)
    (m hs0 hs1 mbeg mend : Int) (mem : Mem S)
    (h0 : 0 ≤ mbeg) (h1 : mbeg < mend - 1) (h2 : mend ≤ m) :
    ∀ w ∈ blockStores A W F tol hs0 hs1 mbeg mend mem, 0 ≤ w.1 ∧ w.1 < m := by
  intro w hw
  unfold blockStores at hw
  simp only [] at hw
  split_ifs at hw
  · simp only [List.mem_cons, List.mem_singleton, List.not_mem_nil, or_false] at hw
    rcases hw with hw | hw <;> subst hw <;> constructor <;> simp only [] <;> omega
  · simp only [List.mem_singleton] at hw
    subst hw
    constructor <;> simp only [] <;> omega
  · simp only [List.mem_cons, List.mem_singleton, List.not_mem_nil, or_false] at hw
    rcases hw with hw | hw <;> subst hw <;> constructor <;> simp only [] <;> omega
  · simp at hw

theorem applyStores_frame (er ers ei eis : Int) (l : List (Int × S × S)) (E : Int → S)
    (a : Int) (h : ∀ w ∈ l, a ≠ er + w.1 * ers ∧ a ≠ ei + w.1 * eis) :
    applyStores er ers ei eis l E a = E a := by
  induction l generalizing E with
  | nil => rfl
  | cons w l ih =>
    have hw := h w (List.mem_cons_self w l)
    show applyStores er ers ei eis l _ a = _
    rw [ih _ (fun v hv => h v (List.mem_cons_of_mem w hv))]
    show store (store E (er + w.1 * ers) w.2.1) (ei + w.1 * eis) w.2.2 a = E a
    rw [store_other _ _ _ _ hw.2, store_other _ _ _ _ hw.1]

theorem slot_ne_int (p st : Int) (hst : st ≠ 0) (i j : Int) (h : i ≠ j) :
    p + i * st ≠ p + j * st := by
  intro he
  exact h (mul_right_cancel₀ hst (add_left_cancel he))

theorem iterate_slot_frame (A : ArithTraits S) (W : Wilkinson S) (F : Francis S) (tol : S)
    (m hs0 hs1 er ers ei eis : Int) (hm : 1 ≤ m) (hers : ers ≠ 0) (heis : eis ≠ 0)
    (hdisj : ∀ i j : Int, 0 ≤ i → i < m → 0 ≤ j → j < m → er + i * ers ≠ ei + j * eis)
    (n : Nat) (mem : Mem S) (i : Int) (h0 : 0 ≤ i) (hi : i < m)
    (hnot : i ∉ loopSlots A W F tol m hs0 hs1 er ers ei eis n mem) :
    (iterate A W F tol m hs0 hs1 er ers ei eis n mem).2.E (er + i * ers) = mem.E (er + i * ers) ∧
    (iterate A W F tol m hs0 hs1 er ers ei eis n mem).2.E (ei + i * eis)
      = mem.E (ei + i * eis) := by
  induction n generalizing mem with
  | zero => exact ⟨rfl, rfl⟩
  | succ n ih =>
    by_cases hact : active A tol m (hs0 + hs1) hs1 mem.H = true
    · have hw := window_bounds A tol m (hs0 + hs1) hs1 mem.H hm
      have hlt : mbegOf A tol m (hs0 + hs1) hs1 mem.H
          < mendOf A tol m (hs0 + hs1) hs1 mem.H - 1 := by
        simpa [active] using hact
      simp only [loopSlots, hact, if_true, List.mem_append, not_or, List.mem_map,
        not_exists, not_and] at hnot
      have hb := blockStores_bounds A W F tol m hs0 hs1 _ _ mem hw.1 hlt hw.2.2
      have hne : ∀ w ∈ blockStores A W F tol hs0 hs1 (mbegOf A tol m (hs0 + hs1) hs1 mem.H)
          (mendOf A tol m (hs0 + hs1) hs1 mem.H) mem, i ≠ w.1 :=
        fun w hw1 heq => hnot.1 w hw1 heq.symm
      have ih1 := ih (sweep A W F tol m hs0 hs1 er ers ei eis mem) hnot.2
      simp only [iterate, hact, if_true]
      rw [ih1.1, ih1.2]
      unfold sweep
      rw [francisBlock_E_eq]
      constructor
      · apply applyStores_frame
        intro w hw1
        exact ⟨slot_ne_int er ers hers i w.1 (hne w hw1),
          hdisj i w.1 h0 hi (hb w hw1).1 (hb w hw1).2⟩
      · apply applyStores_frame
        intro w hw1
        exact ⟨fun h => hdisj w.1 i (hb w hw1).1 (hb w hw1).2 h0 hi h.symm,
          slot_ne_int ei eis heis i w.1 (hne w hw1)⟩
    · simp only [iterate, hact, Bool.false_eq_true, if_false, and_self]

/-- C7: for `m ≥ 3` the fallback of Step 3 runs exactly when the loop ends with
`converge = true`, which is when the status is 0. Then every slot `i` whose
`er[i*ers]` is NaN after the loop gets `er[i*ers] = H[i*hs]` (the final
diagonal entry) and `ei[i*eis] = 0`, every other slot and every other address
keeps what the loop left, and `H` is not touched; in particular a slot that
still holds the NaN written at entry is filled from the diagonal. With
`converge = false` the status is -1 and the memory is exactly the memory the
loop left. Without `restart` every slot of `er` holds NaN when the loop starts.
A slot that no convergence branch wrote during the loop (`loopSlots`) holds
after the loop what it held at entry; hence, without `restart`, such a slot
equals the diagonal entry with zero imaginary part when the status is 0, and
is still NaN when the status is -1.
The slots of `er` and `ei` are taken to be pairwise distinct addresses. -/
theorem fallback_fills_nan_slots (A : ArithTraits S) (W : Wilkinson S) (F : Francis S)
    (m hs0 hs1 er ers ei eis max_iteration : Int) (user_tolerence : S) (restart : Bool)
    (mem : Mem S) (conv : Bool) (memL : Mem S)
    (hm : 3 ≤ m) (hers : ers ≠ 0) (heis : eis ≠ 0)
    (hdisj : ∀ i j : Int, 0 ≤ i → i < m → 0 ≤ j → j < m → er + i * ers ≠ ei + j * eis)
    (hnan : A.isNan A.nan = true)
    (hL : loopResult A W F m hs0 hs1 er ers ei eis max_iteration user_tolerence restart mem
      = (conv, memL)) :
    ((invoke A W F m hs0 hs1 er ers ei eis max_iteration user_tolerence restart mem).status
        = some 0 ↔ conv = true) ∧
    (conv = true → ∃ mem1,
      invoke A W F m hs0 hs1 er ers ei eis max_iteration user_tolerence restart mem
        = Outcome.ret 0 mem1 ∧
      mem1.H = memL.H ∧
      (∀ i : Int, 0 ≤ i → i < m →
        (A.isNan (memL.E (er + i * ers)) = true →
          mem1.E (er + i * ers) = memL.H (i * (hs0 + hs1)) ∧ mem1.E (ei + i * eis) = A.zero) ∧
        (A.isNan (memL.E (er + i * ers)) = false →
          mem1.E (er + i * ers) = memL.E (er + i * ers) ∧
          mem1.E (ei + i * eis) = memL.E (ei + i * eis)) ∧
        (memL.E (er + i * ers) = A.nan →
          mem1.E (er + i * ers) = memL.H (i * (hs0 + hs1)) ∧ mem1.E (ei + i * eis) = A.zero)) ∧
      (∀ a : Int, (∀ i : Int, 0 ≤ i → i < m → a ≠ er + i * ers ∧ a ≠ ei + i * eis) →
        mem1.E a = memL.E a)) ∧
    (conv = false →
      invoke A W F m hs0 hs1 er ers ei eis max_iteration user_tolerence restart mem
        = Outcome.ret (-1) memL) ∧
    (restart = false → ∀ i : Int, 0 ≤ i → i < m →
      (entryMem A m er ers restart mem).E (er + i * ers) = A.nan) ∧
    (∀ i : Int, 0 ≤ i → i < m →
      i ∉ loopSlots A W F (tolOf A user_tolerence) m hs0 hs1 er ers ei eis max_iteration.toNat
        (entryMem A m er ers restart mem) →
      memL.E (er + i * ers) = (entryMem A m er ers restart mem).E (er + i * ers) ∧
      memL.E (ei + i * eis) = (entryMem A m er ers restart mem).E (ei + i * eis)) ∧
    (restart = false → ∀ i : Int, 0 ≤ i → i < m →
      i ∉ loopSlots A W F (tolOf A user_tolerence) m hs0 hs1 er ers ei eis max_iteration.toNat
        (entryMem A m er ers restart mem) →
      (conv = true →
        (invoke A W F m hs0 hs1 er ers ei eis max_iteration user_tolerence restart mem).mem.E
            (er + i * ers) = memL.H (i * (hs0 + hs1)) ∧
        (invoke A W F m hs0 hs1 er ers ei eis max_iteration user_tolerence restart mem).mem.E
            (ei + i * eis) = A.zero) ∧
      (conv = false →
        (invoke A W F m hs0 hs1 er ers ei eis max_iteration user_tolerence restart mem).mem.E
            (er + i * ers) = A.nan)) := by
  have hinv := invoke_default A W F m hs0 hs1 er ers ei eis max_iteration user_tolerence
    restart mem hm
  rw [invokeDefault_eq] at hinv
  unfold loopResult at hL
  rw [hL] at hinv
  have hd := disj_nat m er ers ei eis hdisj
  have hfill : ∀ i : Int, 0 ≤ i → i < m →
      (A.isNan (memL.E (er + i * ers)) = true →
        fillMissing A m (hs0 + hs1) er ers ei eis memL.H memL.E (er + i * ers)
          = memL.H (i * (hs0 + hs1)) ∧
        fillMissing A m (hs0 + hs1) er ers ei eis memL.H memL.E (ei + i * eis) = A.zero) ∧
      (A.isNan (memL.E (er + i * ers)) = false →
        fillMissing A m (hs0 + hs1) er ers ei eis memL.H memL.E (er + i * ers)
          = memL.E (er + i * ers) ∧
        fillMissing A m (hs0 + hs1) er ers ei eis memL.H memL.E (ei + i * eis)
          = memL.E (ei + i * eis)) := by
    intro i h0 hi
    obtain ⟨hc, hlt⟩ := int_index m i h0 hi
    have h1 := fill_er A (hs0 + hs1) er ers ei eis memL.H m.toNat hers hd m.toNat
      (Nat.le_refl _) memL.E i.toNat hlt
    rw [hc] at h1
    constructor
    · intro hn
      have h2 := fill_ei_nan A (hs0 + hs1) er ers ei eis memL.H m.toNat hers hd m.toNat
        (Nat.le_refl _) memL.E i.toNat hlt (by rw [hc]; exact hn)
      rw [hc] at h2
      rw [hn, if_pos rfl] at h1
      exact ⟨h1, h2⟩
    · intro hn
      have h2 := fill_ei_keep A (hs0 + hs1) er ers ei eis memL.H m.toNat hers heis hd m.toNat
        (Nat.le_refl _) memL.E i.toNat hlt (by rw [hc]; exact hn)
      rw [hc] at h2
      rw [hn, if_neg (by simp)] at h1
      exact ⟨h1, h2⟩
  have hframe : ∀ i : Int, 0 ≤ i → i < m →
      i ∉ loopSlots A W F (tolOf A user_tolerence) m hs0 hs1 er ers ei eis max_iteration.toNat
        (entryMem A m er ers restart mem) →
      memL.E (er + i * ers) = (entryMem A m er ers restart mem).E (er + i * ers) ∧
      memL.E (ei + i * eis) = (entryMem A m er ers restart mem).E (ei + i * eis) := by
    intro i h0 hi hnot
    have := iterate_slot_frame A W F (tolOf A user_tolerence) m hs0 hs1 er ers ei eis
      (by omega) hers heis hdisj max_iteration.toNat (entryMem A m er ers restart mem) i h0 hi
      hnot
    rw [hL] at this
    exact this
  have hentry : restart = false → ∀ i : Int, 0 ≤ i → i < m →
      (entryMem A m er ers restart mem).E (er + i * ers) = A.nan := by
    intro hr i h0 hi
    obtain ⟨hc, hlt⟩ := int_index m i h0 hi
    rw [hr]
    have := initLoop_slot A.nan er ers m.toNat mem.E i.toNat hlt
    rw [hc] at this
    exact this
  refine ⟨?_, ?_, ?_, hentry, hframe, ?_⟩
  · rw [hinv]
    cases conv <;> simp [Outcome.status]
  · intro hc
    rw [hc] at hinv
    refine ⟨_, hinv, rfl, ?_, ?_⟩
    · intro i h0 hi
      refine ⟨(hfill i h0 hi).1, (hfill i h0 hi).2, ?_⟩
      intro hv
      exact (hfill i h0 hi).1 (by rw [hv]; exact hnan)
    · intro a ha
      apply fill_frame
      intro k hk
      exact ha k (by omega) (by omega)
  · intro hc
    rw [hc] at hinv
    exact hinv
  · intro hr i h0 hi hnot
    have hv : memL.E (er + i * ers) = A.nan := by
      rw [(hframe i h0 hi hnot).1]
      exact hentry hr i h0 hi
    constructor
    · intro hc
      rw [hc] at hinv
      rw [hinv]
      exact (hfill i h0 hi).1 (by rw [hv]; exact hnan)
    · intro hc
      rw [hc] at hinv
      rw [hinv]
      exact hv

theorem memBlock_active :
    active ratTraits (tolOf ratTraits (some (-1))) 3 (3 + 1) 1 memBlock.H = true := by
  unfold active mbegOf
  rw [memBlock_cntBeg, memBlock_mendOf]
  rfl

/-- Witness for C7: [[1,-1,0],[1,1,0],[0,0,5]] with contiguous `er` at address
0 and `ei` at address 3 and `max_iteration = 1`: the one iteration records the
window `[0, 2)` in slots 0 and 1, the loop ends without convergence, and slot
2, which no convergence branch wrote, still holds NaN on return. -/
theorem fallback_fills_nan_slots_witness :
    (invoke ratTraits (wilkinsonShift ratSqrt) (francisId (Option ℚ)) 3 3 1 0 1 3 1 1
      (some (-1)) false memBlock).mem.E (0 + 2 * 1) = ratTraits.nan := by
  have he : (entryMem ratTraits 3 0 1 false memBlock).H = memBlock.H := rfl
  have hact : active ratTraits (tolOf ratTraits (some (-1))) 3 (3 + 1) 1
      (entryMem ratTraits 3 0 1 false memBlock).H = true := by
    rw [he]
    exact memBlock_active
  have hL : loopResult ratTraits (wilkinsonShift ratSqrt) (francisId (Option ℚ)) 3 3 1 0 1 3 1 1
      (some (-1)) false memBlock
      = (false, sweep ratTraits (wilkinsonShift ratSqrt) (francisId (Option ℚ))
          (tolOf ratTraits (some (-1))) 3 3 1 0 1 3 1 (entryMem ratTraits 3 0 1 false memBlock)) := by
    unfold loopResult
    show iterate _ _ _ _ _ _ _ _ _ _ _ 1 _ = _
    simp only [iterate, hact, if_true]
  have hnot : (2 : Int) ∉ loopSlots ratTraits (wilkinsonShift ratSqrt) (francisId (Option ℚ))
      (tolOf ratTraits (some (-1))) 3 3 1 0 1 3 1 (1 : Int).toNat
      (entryMem ratTraits 3 0 1 false memBlock) := by
    show (2 : Int) ∉ loopSlots _ _ _ _ _ _ _ _ _ _ _ 1 _
    simp only [loopSlots, hact, if_true, List.append_nil]
    rw [he]
    unfold mbegOf
    rw [memBlock_cntBeg, memBlock_mendOf]
    unfold blockStores
    simp
  exact ((fallback_fills_nan_slots ratTraits (wilkinsonShift ratSqrt) (francisId (Option ℚ))
    3 3 1 0 1 3 1 1 (some (-1)) false memBlock false _ (by decide) (by decide) (by decide)
    diag_disjoint rfl hL).2.2.2.2.2 rfl 2 (by decide) (by decide) hnot).2 rfl

end SerialEigenvalueInternal

end KokkosBatched
